import Mathlib

/-!
Verification of the twoson translation-editor core.

The Rust source (src/main.rs, src/translation_data.rs) is shallowly embedded
here.  Strings are modelled as `List Char` (Rust `String` comparison is
byte-lexicographic over UTF-8, which coincides with code-point lexicographic
order on the character list).  `HashMap`s are modelled as association lists
queried with a first-match lookup; the stores produced by the program have
distinct keys, which theorems carry as a `NoDup` hypothesis where it matters.
Fallible or panicking code paths return `Option`.
-/

abbrev Str := List Char

def strOf (s : String) : Str := s.data

/-- Lexicographic comparison of strings by code point; this is the order of
Rust's `a.key.cmp(&b.key)` (byte order on UTF-8 agrees with code-point
order). -/
def strLe : Str → Str → Bool
  | [], _ => true
  | _ :: _, [] => false
  | a :: as, b :: bs => if a < b then true else if b < a then false else strLe as bs

/-- Rust `key.split('.')`: splits at every dot, keeping empty pieces;
the empty string yields one empty piece. -/
def splitDot : Str → List Str
  | [] => [[]]
  | c :: rest =>
    if c = '.' then [] :: splitDot rest
    else
      match splitDot rest with
      | s :: ss => (c :: s) :: ss
      | [] => [[c]]

/-- Joining with dots, the inverse direction of `splitDot`. -/
def joinDot : List Str → Str
  | [] => []
  | [s] => s
  | s :: t :: rest => s ++ '.' :: joinDot (t :: rest)

/-- A string containing no dot (one path segment). -/
def dotFree : Str → Bool
  | [] => true
  | c :: s => if c = '.' then false else dotFree s

/-! ## JSON values

`serde_json::Value` restricted to the shapes the program produces: strings and
objects (`JsonValue` in translation_data.rs has exactly these two variants).
Objects are association lists; `objFind` is map lookup and `objInsert` is
`serde_json::Map::insert` (replace the value at an existing key, otherwise
append a new binding). -/

inductive JValue where
  | str : Str → JValue
  | obj : List (Str × JValue) → JValue
deriving Repr

def objFind : List (Str × JValue) → Str → Option JValue
  | [], _ => none
  | (k, v) :: rest, key => if k = key then some v else objFind rest key

def objInsert : List (Str × JValue) → Str → JValue → List (Str × JValue)
  | [], key, v => [(key, v)]
  | (k, w) :: rest, key, v =>
      if k = key then (k, v) :: rest else (k, w) :: objInsert rest key v

/-- Looking a dotted path up in a nested value: descend one object layer per
segment; a complete path ends exactly at a string leaf. -/
def pathLookup : JValue → List Str → Option Str
  | .str s, [] => some s
  | .str _, _ :: _ => none
  | .obj _, [] => none
  | .obj m, k :: rest =>
      match objFind m k with
      | some v => pathLookup v rest
      | none => none

/-- The walk of `TranslationStore::unflatten_to_json_value` for a single key:
at the final segment, if the current value is an object, insert the string
(silently skipping otherwise); at an intermediate segment, enter the existing
child (creating an empty object when absent) — the Rust code calls
`.as_object_mut().unwrap()` there, so a non-object child at an intermediate
segment is a panic, modelled as `none`. -/
def insertPath : JValue → List Str → Str → Option JValue
  | v, [], _ => some v
  | .obj m, [seg], text => some (.obj (objInsert m seg (.str text)))
  | .str u, [_], _ => some (.str u)
  | .obj m, seg :: s2 :: rest, text =>
      let child := (objFind m seg).getD (.obj [])
      (insertPath child (s2 :: rest) text).map (fun c => .obj (objInsert m seg c))
  | .str _, _ :: _ :: _, _ => none

/-- `TranslationStore::flatten_recursive`: a string leaf yields one entry at
the accumulated prefix; an object recurses into each entry with the prefix
extended by a dot and the entry's key. -/
def flatten_recursive : Str → JValue → List (Str × Str)
  | pre, .str s => [(pre, s)]
  | _, .obj [] => []
  | pre, .obj ((k, v) :: rest) =>
      flatten_recursive (pre ++ '.' :: k) v ++ flatten_recursive pre (.obj rest)

/-- `TranslationStore::flatten_json`: flatten every top-level entry, the key
itself being the initial prefix. -/
def flatten_json : List (Str × JValue) → List (Str × Str)
  | [] => []
  | (k, v) :: rest => flatten_recursive k v ++ flatten_json rest

/-- Complete paths of a value, as segment lists. -/
def pathsVal : JValue → List (List Str × Str)
  | .str t => [([], t)]
  | .obj [] => []
  | .obj ((k, v) :: rest) =>
      (pathsVal v).map (fun pt => (k :: pt.1, pt.2)) ++ pathsVal (.obj rest)

/-- Well-formedness of the trees `unflatten_to_json_value` builds: object keys
are dot-free and distinct at every level. -/
def wfJ : JValue → Bool
  | .str _ => true
  | .obj [] => true
  | .obj ((k, v) :: rest) =>
      dotFree k && (objFind rest k).isNone && wfJ v && wfJ (.obj rest)

/-! ## Translation items and the store

`TranslationStore` owns `all_items : HashMap<String, TranslationItem>`;
it is modelled as a list of items looked up by first key match (the real map
has distinct keys, carried as `NoDup` hypotheses). -/

structure TranslationItem where
  key : Str
  source_text : Str
  target_text : Option Str
deriving Repr, DecidableEq

/-- `TranslationItem::is_translated`: the target text is set (emptiness is
not checked). -/
def TranslationItem.is_translated (i : TranslationItem) : Bool :=
  i.target_text.isSome

def storeKeys (s : List TranslationItem) : List Str := s.map (·.key)

def storeFind : List TranslationItem → Str → Option TranslationItem
  | [], _ => none
  | it :: rest, k => if it.key = k then some it else storeFind rest k

/-- The folded walk of `unflatten_to_json_value` over a list of
(segment-path, text) entries; `none` is a panic inside `insertPath`. -/
def insertAllPaths : JValue → List (List Str × Str) → Option JValue
  | v, [] => some v
  | v, (p, t) :: rest =>
      match insertPath v p t with
      | some v' => insertAllPaths v' rest
      | none => none

/-- The (path, text) entries `unflatten_to_json_value` actually inserts,
in the order it processes them: for each key of the given list, look the item
up and keep it only when `target_text` is set. -/
def translatedEntries (s : List TranslationItem) : List Str → List (List Str × Str) :=
  List.filterMap fun k =>
    (storeFind s k).bind fun it => it.target_text.map fun t => (splitDot k, t)

/-- `TranslationStore::unflatten_to_json_value`: sort all keys ascending,
then walk each translated key's segments into a nested object rooted at an
empty object.  `none` models the `unwrap` panic on a non-object intermediate
value. -/
def unflatten_to_json_value (s : List TranslationItem) : Option JValue :=
  insertAllPaths (.obj [])
    (translatedEntries s (List.insertionSort (fun a b => strLe a b = true) (storeKeys s)))

/-- First-match lookup among (path, text) entries. -/
def entFind : List (List Str × Str) → List Str → Option Str
  | [], _ => none
  | (p, t) :: rest, q => if p = q then some t else entFind rest q

/-! ## Relating `flatten_json` to complete paths -/

/-- The key suffix flatten builds below a prefix: a dot then the segment,
for each segment. -/
def dotCat : List Str → Str
  | [] => []
  | s :: rest => '.' :: s ++ dotCat rest

/-- Lookup in the flat map flatten produces.  `flatten_json` feeds a
`HashMap` whose `insert` lets later duplicate keys win, so the model reads
the last matching entry. -/
def flatFind : List (Str × Str) → Str → Option Str
  | [], _ => none
  | (k, v) :: rest, key =>
      match flatFind rest key with
      | some w => some w
      | none => if k = key then some v else none

/-! ## Store-level characterisation of the unflattened document -/

/-- The leaf the store describes at a segment path: the target text of the
item whose key splits to that path (if any). -/
def storeLeafAt : List TranslationItem → List Str → Option Str
  | [], _ => none
  | it :: rest, q => if splitDot it.key = q then it.target_text else storeLeafAt rest q

/-- Keys of the items that carry a target text. -/
def translatedKeys (s : List TranslationItem) : List Str :=
  s.filterMap fun it => if it.target_text.isSome then some it.key else none

/-- Neither key's segment path extends the other's. -/
def SegApart (a b : Str) : Prop :=
  ¬ (splitDot a <+: splitDot b) ∧ ¬ (splitDot b <+: splitDot a)

instance (a b : Str) : Decidable (SegApart a b) := by
  unfold SegApart
  exact instDecidableAnd

/-- The nested value at a dotted key of the unflattened store, `none` when
unflattening panics or no leaf sits at that key. -/
def unflattenLeaf (s : List TranslationItem) (k : Str) : Option Str :=
  match unflatten_to_json_value s with
  | some v => pathLookup v (splitDot k)
  | none => none

/-- The store of the nesting counterexamples: the key `a` is both a leaf and
a namespace of `a.b`, and both carry target text. -/
def nestedStore : List TranslationItem :=
  [⟨strOf "a", strOf "s1", some (strOf "x")⟩,
   ⟨strOf "a.b", strOf "s2", some (strOf "y")⟩]

/-! ## The key tree of main.rs -/

inductive TreeNode where
  | mk (key_segment : Str) (full_path : Str) (translation : Option TranslationItem)
      (children : List TreeNode) (expanded : Bool) (fully_translated : Bool)
deriving Repr

def TreeNode.key_segment : TreeNode → Str
  | .mk k _ _ _ _ _ => k

def TreeNode.full_path : TreeNode → Str
  | .mk _ f _ _ _ _ => f

def TreeNode.translation : TreeNode → Option TranslationItem
  | .mk _ _ t _ _ _ => t

def TreeNode.children : TreeNode → List TreeNode
  | .mk _ _ _ c _ _ => c

def TreeNode.expanded : TreeNode → Bool
  | .mk _ _ _ _ e _ => e

def TreeNode.fully_translated : TreeNode → Bool
  | .mk _ _ _ _ _ b => b

/-- `TreeNode::is_leaf`: no children. -/
def TreeNode.is_leaf (n : TreeNode) : Bool := n.children.isEmpty

def TreeNode.withTranslation : TreeNode → Option TranslationItem → TreeNode
  | .mk k f _ c e b, t => .mk k f t c e b

def TreeNode.withChildren : TreeNode → List TreeNode → TreeNode
  | .mk k f t _ e b, c => .mk k f t c e b

def TreeNode.withExpanded : TreeNode → Bool → TreeNode
  | .mk k f t c _ b, e => .mk k f t c e b

def TreeNode.withStatus : TreeNode → Bool → TreeNode
  | .mk k f t c e _, b => .mk k f t c e b

def emptyTreeNode : TreeNode := .mk [] [] none [] false false

/-- One item's walk of `App::build_tree`: follow the key's segments down the
forest, at each level reusing the first sibling with the segment (Rust
`position`) or appending a fresh node, extending `path_so_far` with a dot
unless it is still empty, and attaching the item at the final segment. -/
def insertSegs : List TreeNode → Str → List Str → TranslationItem → List TreeNode
  | nodes, _, [], _ => nodes
  | nodes, path_so_far, seg :: rest, item =>
      let newPath := if path_so_far.isEmpty then seg else path_so_far ++ '.' :: seg
      let nodes1 := if nodes.any fun n => decide (n.key_segment = seg) then nodes
                    else nodes ++ [TreeNode.mk seg newPath none [] false false]
      let i := nodes1.findIdx fun n => decide (n.key_segment = seg)
      let n := nodes1.getD i emptyTreeNode
      let n1 := if rest.isEmpty then n.withTranslation (some item) else n
      nodes1.set i (n1.withChildren (insertSegs n1.children newPath rest item))

/-- `App::build_tree`: sort the items ascending by key (Rust's stable
`sort_by` on `key.cmp`), then insert each item's segment path in turn,
starting from an empty forest and an empty `path_so_far`. -/
def build_tree (items : List TranslationItem) : List TreeNode :=
  (List.insertionSort (fun a b => strLe a.key b.key = true) items).foldl
    (fun acc item => insertSegs acc [] (splitDot item.key) item) []

/-- `App::update_node_translation_status`: re-annotate the forest bottom-up
(a leaf is fully translated when its translation's target is set, an inner
node when all its re-annotated children are), returning the re-annotated
forest paired with the AND over the nodes at this level. -/
def update_node_translation_status : List TreeNode → List TreeNode × Bool
  | [] => ([], true)
  | n :: ns =>
      let n' :=
        if n.is_leaf then
          n.withStatus (match n.translation with
            | some t => t.is_translated
            | none => false)
        else
          let p := update_node_translation_status n.children
          (n.withChildren p.1).withStatus p.2
      let q := update_node_translation_status ns
      (n' :: q.1, n'.fully_translated && q.2)
termination_by ns => sizeOf ns
decreasing_by
  all_goals
    (have hsz : sizeOf n.children < sizeOf n := by
       rcases n with ⟨k, f, t, c, e, b⟩
       simp [TreeNode.children]
       omega
     simp
     try omega)

/-- `App::generate_visible_list_recursive`: emit each node's full path at the
current depth, then its subtree one deeper when it is expanded. -/
def generate_visible_list_recursive : List TreeNode → Nat → List (Str × Nat)
  | [], _ => []
  | n :: ns, depth =>
      (n.full_path, depth) ::
        ((if n.expanded then generate_visible_list_recursive n.children (depth + 1)
          else []) ++
          generate_visible_list_recursive ns depth)
termination_by ns => sizeOf ns
decreasing_by
  all_goals
    (have hsz : sizeOf n.children < sizeOf n := by
       rcases n with ⟨k, f, t, c, e, b⟩
       simp [TreeNode.children]
       omega
     simp
     try omega)

/-- `App::update_visible_nodes`: regenerate the visible list from the forest
at depth 0, then clamp `selected_index` to the last index when it is out of
range and the list is nonempty. -/
def update_visible_nodes (tree : List TreeNode) (selected_index : Nat) :
    List (Str × Nat) × Nat :=
  let vis := generate_visible_list_recursive tree 0
  if selected_index ≥ vis.length ∧ vis ≠ [] then (vis, vis.length - 1)
  else (vis, selected_index)

/-- First sibling with the given segment (Rust `iter().find`). -/
def findNode : List TreeNode → Str → Option TreeNode
  | [], _ => none
  | n :: ns, seg => if n.key_segment = seg then some n else findNode ns seg

/-- `App::get_node`: split the path on dots, find the root by the first
segment, then descend through children by the remaining segments. -/
def get_node_segs : List TreeNode → List Str → Option TreeNode
  | _, [] => none
  | nodes, [seg] => findNode nodes seg
  | nodes, seg :: s2 :: rest =>
      match findNode nodes seg with
      | some n => get_node_segs n.children (s2 :: rest)
      | none => none

def get_node (tree : List TreeNode) (path : Str) : Option TreeNode :=
  get_node_segs tree (splitDot path)

def mapFirst : List TreeNode → Str → (TreeNode → TreeNode) → List TreeNode
  | [], _, _ => []
  | n :: ns, seg, f =>
      if n.key_segment = seg then f n :: ns else n :: mapFirst ns seg f

/-- `App::get_node_mut` followed by an update of the found node, as a pure
tree transformation: navigate like `get_node`; when the navigation fails the
tree is unchanged. -/
def modify_node_segs : List TreeNode → List Str → (TreeNode → TreeNode) → List TreeNode
  | nodes, [], _ => nodes
  | nodes, [seg], f => mapFirst nodes seg f
  | nodes, seg :: s2 :: rest, f =>
      mapFirst nodes seg fun n => n.withChildren (modify_node_segs n.children (s2 :: rest) f)

def modify_node (tree : List TreeNode) (path : Str) (f : TreeNode → TreeNode) :
    List TreeNode :=
  modify_node_segs tree (splitDot path) f

/-- The visible rows and selection of `App` (the slice of state the
navigation claims concern). -/
structure AppState where
  tree : List TreeNode
  visible_nodes : List (Str × Nat)
  selected_index : Nat

/-- `App::toggle_expand`: read the selected row's path, flip `expanded` on
that node when it is not a leaf, regenerate the visible list (with its
clamping), then re-select the first row carrying the remembered path when
one exists. -/
def toggle_expand (st : AppState) : AppState :=
  match st.visible_nodes.get? st.selected_index with
  | none => st
  | some pd =>
      let tree' := modify_node st.tree pd.1
        fun n => if n.is_leaf then n else n.withExpanded (!n.expanded)
      let vs := update_visible_nodes tree' st.selected_index
      let sel2 :=
        match vs.1.findIdx? fun x => decide (x.1 = pd.1) with
        | some i => i
        | none => vs.2
      ⟨tree', vs.1, sel2⟩

/-- `usize` subtraction of one with release-mode wrap-around: `0 - 1`
underflows to `2^64 - 1`. -/
def usize_wrapping_sub_one (n : Nat) : Nat := if n = 0 then 2 ^ 64 - 1 else n - 1

/-- `App::next`: move the selection down unless it already sits at
`visible_nodes.len() - 1`, that length computed with wrapping `usize`
arithmetic. -/
def next (visible_len selected_index : Nat) : Nat :=
  if selected_index < usize_wrapping_sub_one visible_len then selected_index + 1
  else selected_index

/-- The stay-centered scrolling of `App::render_key_list`: aim the selection
at the middle row, clamp the offset to the scrollable range, and pin it to 0
when everything fits; outside the `height > 1 && num_items > 0` guard the
`ListState` offset stays at its default 0. -/
def render_key_list_offset (selected_index num_items height : Nat) : Nat :=
  if 1 < height ∧ 0 < num_items then
    let middle_row := height / 2
    let offset := selected_index - middle_row
    if num_items > height then min offset (num_items - height) else 0
  else 0

def TranslationItem.withTarget (it : TranslationItem) (t : Option Str) : TranslationItem :=
  { it with target_text := t }

/-- `all_items.get_mut(&path)` followed by `item.target_text = t`: update the
store entry at the key when present. -/
def storeUpdate : List TranslationItem → Str → Option Str → List TranslationItem
  | [], _, _ => []
  | it :: rest, k, t =>
      if it.key = k then it.withTarget t :: rest else it :: storeUpdate rest k t

/-- `App::save_textarea_to_translation`: with a selected path, commit the
editor text — `Some` of it when nonempty, `None` when empty — to the store
entry and to the tree node's cached translation (when that node holds one),
then re-annotate the forest. -/
def save_textarea_to_translation (store : List TranslationItem)
    (tree : List TreeNode) (selected_path : Option Str) (new_text : Str) :
    List TranslationItem × List TreeNode :=
  match selected_path with
  | none => (store, tree)
  | some path =>
      let text_to_save := if new_text.isEmpty then none else some new_text
      let store' := storeUpdate store path text_to_save
      let tree' := modify_node tree path fun n =>
        match n.translation with
        | some ti => n.withTranslation (some (ti.withTarget text_to_save))
        | none => n
      (store', (update_node_translation_status tree').1)

/-! ## C1: the completion propagation invariant -/

/-- The completion invariant over an annotated forest: a leaf's flag equals
whether its translation is present with target set, an inner node's flag
equals the AND over its children's flags, recursively. -/
def status_invariant : List TreeNode → Bool
  | [] => true
  | n :: ns =>
      (if n.is_leaf then
        n.fully_translated == (match n.translation with
          | some t => t.is_translated
          | none => false)
      else
        (n.fully_translated == n.children.all fun c => c.fully_translated) &&
          status_invariant n.children) &&
      status_invariant ns
termination_by ns => sizeOf ns
decreasing_by
  all_goals
    (have hsz : sizeOf n.children < sizeOf n := by
       rcases n with ⟨k, f, t, c, e, b⟩
       simp [TreeNode.children]
       omega
     simp
     try omega)

/-! ## C7: structural determinism of `build_tree` -/

mutual

/-- A node with its translation payloads erased, keeping key segment, full
path, sibling order, expand flag and completion flag: the structure the
determinism claim compares. -/
def eraseNode : TreeNode → TreeNode
  | .mk k f _ c e b => .mk k f none (eraseForest c) e b

def eraseForest : List TreeNode → List TreeNode
  | [] => []
  | n :: ns => eraseNode n :: eraseForest ns

end

/-- Pure structural insertion: `insertSegs` with the translation attachment
dropped (what the walk does to the forest's shape). -/
def insertShape : List TreeNode → Str → List Str → List TreeNode
  | nodes, _, [] => nodes
  | nodes, path_so_far, seg :: rest =>
      let newPath := if path_so_far.isEmpty then seg else path_so_far ++ '.' :: seg
      let nodes1 := if nodes.any fun n => decide (n.key_segment = seg) then nodes
                    else nodes ++ [TreeNode.mk seg newPath none [] false false]
      let i := nodes1.findIdx fun n => decide (n.key_segment = seg)
      let n := nodes1.getD i emptyTreeNode
      nodes1.set i (n.withChildren (insertShape n.children newPath rest))

/-! ## C4: leaves carry translations, machinery -/

/-- The node `insertSegs` leaves at the matched position: the translation
attached when this is the final segment, and the walk continued into the
children. -/
def insertChild (n : TreeNode) (newPath : Str) (rest : List Str)
    (item : TranslationItem) : TreeNode :=
  (if rest.isEmpty then n.withTranslation (some item) else n).withChildren
    (insertSegs n.children newPath rest item)

/-- The continuations, below one root segment, of a list of segment paths. -/
def restrictPaths (S : List (List Str)) (seg : Str) : List (List Str) :=
  S.filterMap fun p =>
    match p with
    | [] => none
    | s :: q => if s = seg then some q else none

/-- Drop the empty continuations (paths that end at the node itself). -/
def nonNil (S : List (List Str)) : List (List Str) :=
  S.filter fun q => decide (q ≠ [])

/-- The invariant `build_tree` maintains: relative to the list `S` of path
continuations routed through this sibling list, every path is represented,
keys are distinct, every node is justified by some path, a node holds a
translation exactly when a path ends at it, it has children exactly when
some path continues below it, and its children satisfy the invariant for
those continuations. -/
inductive TreeInv : List TreeNode → List (List Str) → Prop where
  | mk : ∀ (nodes : List TreeNode) (S : List (List Str)),
      (∀ p ∈ S, ∃ s q, p = s :: q ∧ s ∈ nodes.map TreeNode.key_segment) →
      (nodes.map TreeNode.key_segment).Nodup →
      (∀ n ∈ nodes, restrictPaths S n.key_segment ≠ []) →
      (∀ n ∈ nodes, n.translation.isSome = true ↔ [] ∈ restrictPaths S n.key_segment) →
      (∀ n ∈ nodes, n.children = [] ↔ nonNil (restrictPaths S n.key_segment) = []) →
      (∀ n ∈ nodes, TreeInv n.children (nonNil (restrictPaths S n.key_segment))) →
      TreeInv nodes S

/-- The leaf/translation agreement over a forest: every node carries a
translation exactly when it has no children, recursively. -/
def leaf_iff_translation : List TreeNode → Bool
  | [] => true
  | n :: ns =>
      (n.translation.isSome == n.children.isEmpty) &&
        leaf_iff_translation n.children && leaf_iff_translation ns
termination_by ns => sizeOf ns
decreasing_by
  all_goals
    (have hsz : sizeOf n.children < sizeOf n := by
       rcases n with ⟨k, f, t, c, e, b⟩
       simp [TreeNode.children]
       omega
     simp
     try omega)

/-- Neither path extends the other. -/
def PathApart (a b : List Str) : Prop := ¬ (a <+: b) ∧ ¬ (b <+: a)

theorem strLe_refl (a : Str) : strLe a a = true := by
  induction a with
  | nil => rfl
  | cons c cs ih => simp [strLe, ih]

theorem strLe_total (a b : Str) : strLe a b = true ∨ strLe b a = true := by
  induction a generalizing b with
  | nil => left; rfl
  | cons c cs ih =>
    cases b with
    | nil => right; rfl
    | cons d ds =>
      rcases lt_trichotomy c d with h | h | h
      · left; simp [strLe, h]
      · subst h; simpa [strLe] using ih ds
      · right; simp [strLe, h]

theorem strLe_antisymm {a b : Str} (h1 : strLe a b = true) (h2 : strLe b a = true) :
    a = b := by
  induction a generalizing b with
  | nil =>
    cases b with
    | nil => rfl
    | cons d ds => simp [strLe] at h2
  | cons c cs ih =>
    cases b with
    | nil => simp [strLe] at h1
    | cons d ds =>
      rcases lt_trichotomy c d with h | h | h
      · simp [strLe, h, not_lt_of_lt h] at h2
      · subst h
        simp only [strLe, lt_irrefl, if_false] at h1 h2
        exact congrArg (c :: ·) (ih h1 h2)
      · simp [strLe, h, not_lt_of_lt h] at h1

theorem strLe_trans {a b c : Str} (h1 : strLe a b = true) (h2 : strLe b c = true) :
    strLe a c = true := by
  induction a generalizing b c with
  | nil => rfl
  | cons x xs ih =>
    cases b with
    | nil => simp [strLe] at h1
    | cons y ys =>
      cases c with
      | nil => simp [strLe] at h2
      | cons z zs =>
        simp only [strLe] at h1 h2 ⊢
        rcases lt_trichotomy x y with hxy | hxy | hxy
        · rcases lt_trichotomy y z with hyz | hyz | hyz
          · simp [lt_trans hxy hyz]
          · subst hyz; simp [hxy]
          · simp [hyz, not_lt_of_lt hyz] at h2
        · subst hxy
          rcases lt_trichotomy x z with hxz | hxz | hxz
          · simp [hxz]
          · subst hxz
            simp only [lt_irrefl, if_false] at h1 h2 ⊢
            exact ih h1 h2
          · simp [hxz, not_lt_of_lt hxz] at h2
        · simp [hxy, not_lt_of_lt hxy] at h1

theorem splitDot_ne_nil (s : Str) : splitDot s ≠ [] := by
  cases s with
  | nil => simp [splitDot]
  | cons c rest =>
    simp only [splitDot]
    split
    · simp
    · split <;> simp

theorem joinDot_splitDot (s : Str) : joinDot (splitDot s) = s := by
  induction s with
  | nil => rfl
  | cons c rest ih =>
    simp only [splitDot]
    by_cases hc : c = '.'
    · subst hc
      simp only [if_pos rfl]
      rcases h : splitDot rest with _ | ⟨p, ps⟩
      · exact absurd h (splitDot_ne_nil rest)
      · rw [h] at ih
        simpa [joinDot] using ih
    · rw [if_neg hc]
      rcases h : splitDot rest with _ | ⟨p, ps⟩
      · exact absurd h (splitDot_ne_nil rest)
      · rw [h] at ih
        cases ps with
        | nil => simpa [joinDot] using ih
        | cons q qs => simpa [joinDot] using ih

theorem splitDot_injective {a b : Str} (h : splitDot a = splitDot b) : a = b := by
  have ha := joinDot_splitDot a
  have hb := joinDot_splitDot b
  rw [← ha, ← hb, h]

theorem dotFree_cons_iff {c : Char} {s : Str} :
    dotFree (c :: s) = true ↔ c ≠ '.' ∧ dotFree s = true := by
  by_cases h : c = '.' <;> simp [dotFree, h]

theorem splitDot_dotFree (s : Str) : ∀ p ∈ splitDot s, dotFree p = true := by
  induction s with
  | nil => intro p hp; simp [splitDot] at hp; simp [hp, dotFree]
  | cons c rest ih =>
    intro p hp
    simp only [splitDot] at hp
    by_cases hc : c = '.'
    · subst hc
      rw [if_pos rfl] at hp
      rcases List.mem_cons.mp hp with hp | hp
      · simp [hp, dotFree]
      · exact ih p hp
    · rw [if_neg hc] at hp
      rcases h : splitDot rest with _ | ⟨q, qs⟩
      · exact absurd h (splitDot_ne_nil rest)
      · rw [h] at hp
        rcases List.mem_cons.mp hp with hp | hp
        · subst hp
          have hq : dotFree q = true := ih q (by rw [h]; exact List.mem_cons_self q qs)
          exact dotFree_cons_iff.mpr ⟨hc, hq⟩
        · exact ih p (by rw [h]; exact List.mem_cons_of_mem q hp)

/-- For a dot-free string the split is a single piece. -/
theorem splitDot_of_dotFree {s : Str} (h : dotFree s = true) : splitDot s = [s] := by
  induction s with
  | nil => rfl
  | cons c rest ih =>
    rw [dotFree_cons_iff] at h
    have hr := ih h.2
    simp [splitDot, h.1, hr]

theorem splitDot_append_dot {a r : Str} (ha : dotFree a = true) :
    splitDot (a ++ '.' :: r) = a :: splitDot r := by
  induction a with
  | nil => simp [splitDot]
  | cons c cs ih =>
    rw [dotFree_cons_iff] at ha
    have := ih ha.2
    simp [splitDot, ha.1, this]

/-- `splitDot` is a left inverse of `joinDot` on nonempty lists of dot-free
segments. -/
theorem splitDot_joinDot {p : List Str} (hne : p ≠ [])
    (hdf : ∀ s ∈ p, dotFree s = true) : splitDot (joinDot p) = p := by
  induction p with
  | nil => exact absurd rfl hne
  | cons s rest ih =>
    cases rest with
    | nil => simp [joinDot, splitDot_of_dotFree (hdf s (by simp))]
    | cons t ts =>
      have hs : dotFree s = true := hdf s (by simp)
      have hrest : ∀ x ∈ t :: ts, dotFree x = true := by
        intro x hx; exact hdf x (List.mem_cons_of_mem s hx)
      have := ih (by simp) hrest
      simp [joinDot, splitDot_append_dot hs, this]

theorem objFind_objInsert_self (m : List (Str × JValue)) (k : Str) (v : JValue) :
    objFind (objInsert m k v) k = some v := by
  induction m with
  | nil => simp [objInsert, objFind]
  | cons p rest ih =>
    obtain ⟨k', w⟩ := p
    by_cases h : k' = k
    · simp [objInsert, h, objFind]
    · simp [objInsert, h, objFind, ih]

theorem objFind_objInsert_ne (m : List (Str × JValue)) {k k' : Str} (v : JValue)
    (h : k ≠ k') : objFind (objInsert m k v) k' = objFind m k' := by
  induction m with
  | nil => simp [objInsert, objFind, h]
  | cons p rest ih =>
    obtain ⟨k0, w⟩ := p
    by_cases h0 : k0 = k
    · subst h0; simp [objInsert, objFind, h]
    · simp [objInsert, h0, objFind, ih]

theorem storeFind_key {s : List TranslationItem} {k : Str} {it : TranslationItem}
    (h : storeFind s k = some it) : it.key = k := by
  induction s with
  | nil => simp [storeFind] at h
  | cons it0 rest ih =>
    by_cases h0 : it0.key = k
    · simp [storeFind, h0] at h; rw [← h]; exact h0
    · simp [storeFind, h0] at h; exact ih h

theorem storeFind_of_mem {s : List TranslationItem} {it : TranslationItem}
    (hnd : (storeKeys s).Nodup) (hm : it ∈ s) : storeFind s it.key = some it := by
  induction s with
  | nil => simp at hm
  | cons it0 rest ih =>
    rcases List.mem_cons.mp hm with hm | hm
    · subst hm; simp [storeFind]
    · have hk : it0.key ≠ it.key := by
        intro he
        have : it.key ∈ storeKeys rest := List.mem_map_of_mem (·.key) hm
        rw [← he] at this
        exact (List.nodup_cons.mp hnd).1 this
      simp [storeFind, hk]
      exact ih (List.nodup_cons.mp hnd).2 hm

theorem pathLookup_obj_nil (m : List (Str × JValue)) : pathLookup (.obj m) [] = none := rfl

theorem pathLookup_obj_cons (m : List (Str × JValue)) (k : Str) (q : List Str) :
    pathLookup (.obj m) (k :: q) =
      match objFind m k with
      | some v => pathLookup v q
      | none => none := rfl

theorem pathLookup_emptyObj (q : List Str) : pathLookup (.obj []) q = none := by
  cases q <;> simp [pathLookup, objFind]

theorem pathLookup_objInsert_self (m : List (Str × JValue)) (seg : Str) (v : JValue)
    (q : List Str) :
    pathLookup (.obj (objInsert m seg v)) (seg :: q) = pathLookup v q := by
  rw [pathLookup_obj_cons]
  simp [objFind_objInsert_self]

theorem pathLookup_objInsert_ne (m : List (Str × JValue)) {seg k : Str} (v : JValue)
    (h : seg ≠ k) (q : List Str) :
    pathLookup (.obj (objInsert m seg v)) (k :: q) = pathLookup (.obj m) (k :: q) := by
  rw [pathLookup_obj_cons, objFind_objInsert_ne m v h, ← pathLookup_obj_cons]

/-- Inserting one nonempty path that neither extends nor is extended by any
complete path of the object succeeds, and changes exactly that one path. -/
theorem insertPath_sem (p : List Str) :
    ∀ (m : List (Str × JValue)) (t : Str), p ≠ [] →
    (∀ q u, pathLookup (.obj m) q = some u → ¬ (p <+: q) ∧ ¬ (q <+: p)) →
    ∃ m', insertPath (.obj m) p t = some (.obj m') ∧
      ∀ q, pathLookup (.obj m') q =
        if q = p then some t else pathLookup (.obj m) q := by
  induction p with
  | nil => intro m t hne _; exact absurd rfl hne
  | cons seg ps ih =>
    intro m t _ hc
    cases ps with
    | nil =>
      refine ⟨objInsert m seg (.str t), rfl, ?_⟩
      intro q
      match q with
      | [] => simp [pathLookup_obj_nil]
      | k :: q' =>
        by_cases hk : k = seg
        · subst hk
          rw [pathLookup_objInsert_self]
          cases q' with
          | nil => simp [pathLookup]
          | cons x xs =>
            have hnone : pathLookup (.obj m) (k :: x :: xs) = none := by
              rcases h : pathLookup (.obj m) (k :: x :: xs) with _ | u
              · rfl
              · exact absurd (List.cons_prefix_cons.mpr ⟨rfl, List.nil_prefix⟩)
                  (hc _ u h).1
            have hne2 : (k :: x :: xs) ≠ [k] := by simp
            rw [if_neg hne2, hnone]
            rfl
        · have hne2 : (k :: q') ≠ [seg] := by simp [hk]
          rw [pathLookup_objInsert_ne m _ (fun h => hk h.symm), if_neg hne2]
    | cons s2 rest =>
      have hps : s2 :: rest ≠ ([] : List Str) := by simp
      rcases hfind : objFind m seg with _ | child
      · -- no child: insert into a fresh empty object
        obtain ⟨m', hins, hsem⟩ := ih [] t hps
          (by intro q u h; rw [pathLookup_emptyObj] at h; exact absurd h (by simp))
        refine ⟨objInsert m seg (.obj m'), ?_, ?_⟩
        · simp [insertPath, hfind, hins]
        · intro q
          match q with
          | [] => simp [pathLookup_obj_nil]
          | k :: q' =>
            by_cases hk : k = seg
            · subst hk
              rw [pathLookup_objInsert_self, hsem q']
              by_cases hq : q' = s2 :: rest
              · simp [hq]
              · have hne2 : (k :: q') ≠ k :: s2 :: rest := by simp [hq]
                rw [if_neg hq, if_neg hne2, pathLookup_emptyObj,
                  pathLookup_obj_cons, hfind]
            · have hne2 : (k :: q') ≠ seg :: s2 :: rest := by simp [hk]
              rw [pathLookup_objInsert_ne m _ (fun h => hk h.symm), if_neg hne2]
      · cases child with
        | str u =>
          exact absurd (List.cons_prefix_cons.mpr ⟨rfl, List.nil_prefix⟩)
            (hc [seg] u (by rw [pathLookup_obj_cons, hfind]; rfl)).2
        | obj mc =>
          obtain ⟨m', hins, hsem⟩ := ih mc t hps (by
            intro q u h
            have hq : pathLookup (.obj m) (seg :: q) = some u := by
              rw [pathLookup_obj_cons, hfind]; exact h
            obtain ⟨h1, h2⟩ := hc (seg :: q) u hq
            constructor
            · intro hpre; exact h1 (List.cons_prefix_cons.mpr ⟨rfl, hpre⟩)
            · intro hpre; exact h2 (List.cons_prefix_cons.mpr ⟨rfl, hpre⟩))
          refine ⟨objInsert m seg (.obj m'), ?_, ?_⟩
          · simp [insertPath, hfind, hins]
          · intro q
            match q with
            | [] => simp [pathLookup_obj_nil]
            | k :: q' =>
              by_cases hk : k = seg
              · subst hk
                rw [pathLookup_objInsert_self, hsem q']
                by_cases hq : q' = s2 :: rest
                · simp [hq]
                · have hne2 : (k :: q') ≠ k :: s2 :: rest := by simp [hq]
                  rw [if_neg hq, if_neg hne2, pathLookup_obj_cons, hfind]
              · have hne2 : (k :: q') ≠ seg :: s2 :: rest := by simp [hk]
                rw [pathLookup_objInsert_ne m _ (fun h => hk h.symm), if_neg hne2]

theorem entFind_eq_none {L : List (List Str × Str)} {q : List Str}
    (h : ∀ pt ∈ L, pt.1 ≠ q) : entFind L q = none := by
  induction L with
  | nil => rfl
  | cons pt rest ih =>
    obtain ⟨p, t⟩ := pt
    have hp : p ≠ q := h (p, t) (by simp)
    simp only [entFind, if_neg hp]
    exact ih fun x hx => h x (List.mem_cons_of_mem _ hx)

theorem entFind_eq_some {L : List (List Str × Str)} {q : List Str} {t : Str}
    (hmem : (q, t) ∈ L) (huniq : ∀ pt ∈ L, pt.1 = q → pt.2 = t) :
    entFind L q = some t := by
  induction L with
  | nil => simp at hmem
  | cons pt rest ih =>
    obtain ⟨p, u⟩ := pt
    by_cases hp : p = q
    · have : u = t := huniq (p, u) (by simp) hp
      simp [entFind, hp, this]
    · simp only [entFind, if_neg hp]
      rcases List.mem_cons.mp hmem with hm | hm
      · exact absurd (congrArg Prod.fst hm).symm hp
      · exact ih hm fun x hx => huniq x (List.mem_cons_of_mem _ hx)

/-- Folding a list of pairwise non-nested, nonempty paths into an object that
conflicts with none of them succeeds and realises exactly those paths. -/
theorem insertAllPaths_sem (L : List (List Str × Str)) :
    ∀ (m : List (Str × JValue)),
    (∀ pt ∈ L, pt.1 ≠ []) →
    L.Pairwise (fun a b => ¬ (a.1 <+: b.1) ∧ ¬ (b.1 <+: a.1)) →
    (∀ q u, pathLookup (.obj m) q = some u →
      ∀ pt ∈ L, ¬ (pt.1 <+: q) ∧ ¬ (q <+: pt.1)) →
    ∃ m', insertAllPaths (.obj m) L = some (.obj m') ∧
      ∀ q, pathLookup (.obj m') q =
        match entFind L q with
        | some t => some t
        | none => pathLookup (.obj m) q := by
  induction L with
  | nil =>
    intro m _ _ _
    exact ⟨m, rfl, fun q => rfl⟩
  | cons pt L' ih =>
    obtain ⟨p, t⟩ := pt
    intro m hne hpw hc
    obtain ⟨m1, hins1, hsem1⟩ := insertPath_sem p m t (hne (p, t) (by simp))
      (fun q u h => hc q u h (p, t) (by simp))
    have hpwL' := (List.pairwise_cons.mp hpw).2
    have hhead := (List.pairwise_cons.mp hpw).1
    obtain ⟨m', hins, hsem⟩ := ih m1
      (fun x hx => hne x (List.mem_cons_of_mem _ hx)) hpwL'
      (by
        intro q u h x hx
        rw [hsem1 q] at h
        by_cases hq : q = p
        · subst hq
          obtain ⟨h1, h2⟩ := hhead x hx
          exact ⟨fun hp => h2 hp, fun hp => h1 hp⟩
        · rw [if_neg hq] at h
          exact hc q u h x (List.mem_cons_of_mem _ hx))
    refine ⟨m', ?_, ?_⟩
    · simp only [insertAllPaths, hins1]
      exact hins
    · intro q
      rw [hsem q, hsem1 q]
      by_cases hq : q = p
      · subst hq
        have hnone : entFind L' q = none := entFind_eq_none (by
          intro x hx he
          exact (hhead x hx).1 (he ▸ List.prefix_refl _))
        simp [entFind, hnone]
      · simp only [entFind, if_neg (fun h : p = q => hq h.symm), if_neg hq]

theorem joinDot_cons_dotCat (p : List Str) : ∀ s, joinDot (s :: p) = s ++ dotCat p := by
  induction p with
  | nil => intro s; simp [joinDot, dotCat]
  | cons a r ih =>
    intro s
    simp only [joinDot, dotCat, ih a]
    simp

theorem flatten_recursive_eq_paths (pre : Str) (v : JValue) :
    flatten_recursive pre v = (pathsVal v).map (fun pt => (pre ++ dotCat pt.1, pt.2)) := by
  induction pre, v using flatten_recursive.induct with
  | case1 pre s => simp [flatten_recursive, pathsVal, dotCat]
  | case2 pre => simp [flatten_recursive, pathsVal]
  | case3 pre k v rest ih1 ih2 =>
    simp only [flatten_recursive, pathsVal, ih1, ih2, List.map_append, List.map_map]
    congr 1
    apply List.map_congr_left
    intro pt _
    simp [dotCat, Function.comp]

theorem flatten_json_eq_paths (m : List (Str × JValue)) :
    flatten_json m = (pathsVal (.obj m)).map (fun pt => (joinDot pt.1, pt.2)) := by
  induction m with
  | nil => simp [flatten_json, pathsVal]
  | cons kv rest ih =>
    obtain ⟨k, v⟩ := kv
    simp only [flatten_json, pathsVal, ih, List.map_append, List.map_map]
    congr 1
    rw [flatten_recursive_eq_paths]
    apply List.map_congr_left
    intro pt _
    simp [joinDot_cons_dotCat, Function.comp]

theorem flatFind_eq_none {L : List (Str × Str)} {s : Str}
    (h : ∀ kv ∈ L, kv.1 ≠ s) : flatFind L s = none := by
  induction L with
  | nil => rfl
  | cons kv rest ih =>
    obtain ⟨k, v⟩ := kv
    have hr := ih fun x hx => h x (List.mem_cons_of_mem _ hx)
    simp only [flatFind, hr, if_neg (h (k, v) (by simp))]

theorem flatFind_mem {L : List (Str × Str)} {s w : Str}
    (h : flatFind L s = some w) : (s, w) ∈ L := by
  induction L with
  | nil => simp [flatFind] at h
  | cons kv rest ih =>
    obtain ⟨k, v⟩ := kv
    simp only [flatFind] at h
    rcases hr : flatFind rest s with _ | w2
    · rw [hr] at h
      by_cases hk : k = s
      · rw [if_pos hk] at h
        have hv : v = w := by simpa using h
        subst hk; subst hv
        exact List.mem_cons_self _ _
      · rw [if_neg hk] at h; simp at h
    · rw [hr] at h
      have hw : w2 = w := by simpa using h
      subst hw
      exact List.mem_cons_of_mem _ (ih hr)

theorem flatFind_eq_some {L : List (Str × Str)} {s t : Str}
    (hmem : (s, t) ∈ L) (huniq : ∀ kv ∈ L, kv.1 = s → kv.2 = t) :
    flatFind L s = some t := by
  induction L with
  | nil => simp at hmem
  | cons kv rest ih =>
    obtain ⟨k, v⟩ := kv
    rcases List.mem_cons.mp hmem with hm | hm
    · have hk : k = s := (congrArg Prod.fst hm).symm
      have hv : v = t := (congrArg Prod.snd hm).symm
      rcases hr : flatFind rest s with _ | w
      · simp [flatFind, hr, hk, hv]
      · have hw : w = t :=
          huniq (s, w) (List.mem_cons_of_mem _ (flatFind_mem hr)) rfl
        simp [flatFind, hr, hw]
    · have := ih hm fun x hx => huniq x (List.mem_cons_of_mem _ hx)
      simp [flatFind, this]

/-! ## Well-formedness of unflattened trees -/

theorem wfJ_objFind {m : List (Str × JValue)} {k : Str} {v : JValue}
    (hwf : wfJ (.obj m) = true) (h : objFind m k = some v) : wfJ v = true := by
  induction m with
  | nil => simp [objFind] at h
  | cons kv rest ih =>
    obtain ⟨k0, v0⟩ := kv
    simp only [wfJ, Bool.and_eq_true] at hwf
    simp only [objFind] at h
    by_cases hk : k0 = k
    · rw [if_pos hk] at h
      exact (Option.some.inj h) ▸ hwf.1.2
    · rw [if_neg hk] at h
      exact ih hwf.2 h

theorem objFind_mem {m : List (Str × JValue)} {k : Str} {v : JValue}
    (h : objFind m k = some v) : (k, v) ∈ m := by
  induction m with
  | nil => simp [objFind] at h
  | cons kv rest ih =>
    obtain ⟨k0, v0⟩ := kv
    simp only [objFind] at h
    by_cases hk : k0 = k
    · rw [if_pos hk] at h
      rw [hk, Option.some.inj h]
      exact List.mem_cons_self _ _
    · rw [if_neg hk] at h
      exact List.mem_cons_of_mem _ (ih h)

theorem wfJ_objInsert {m : List (Str × JValue)} {k : Str} {v : JValue}
    (hwf : wfJ (.obj m) = true) (hdf : dotFree k = true) (hv : wfJ v = true) :
    wfJ (.obj (objInsert m k v)) = true := by
  induction m with
  | nil => simp [objInsert, wfJ, hdf, hv, objFind]
  | cons kv rest ih =>
    obtain ⟨k0, w⟩ := kv
    simp only [wfJ, Bool.and_eq_true] at hwf
    obtain ⟨⟨⟨hdf0, hnone⟩, hw⟩, hrest⟩ := hwf
    by_cases hk : k0 = k
    · subst hk
      have hob : objInsert ((k0, w) :: rest) k0 v = (k0, v) :: rest := by
        simp [objInsert]
      rw [hob]
      simp only [wfJ, Bool.and_eq_true]
      exact ⟨⟨⟨hdf0, hnone⟩, hv⟩, hrest⟩
    · have hob : objInsert ((k0, w) :: rest) k v = (k0, w) :: objInsert rest k v := by
        simp [objInsert, hk]
      rw [hob]
      simp only [wfJ, Bool.and_eq_true]
      refine ⟨⟨⟨hdf0, ?_⟩, hw⟩, ih hrest⟩
      rw [objFind_objInsert_ne rest v (fun h => hk h.symm)]
      exact hnone

theorem wfJ_insertPath (p : List Str) :
    ∀ (v : JValue) (t : Str) (v' : JValue), wfJ v = true →
    (∀ s ∈ p, dotFree s = true) → insertPath v p t = some v' → wfJ v' = true := by
  induction p with
  | nil =>
    intro v t v' hwf _ h
    simp only [insertPath] at h
    exact (Option.some.inj h) ▸ hwf
  | cons seg ps ih =>
    intro v t v' hwf hdf h
    cases ps with
    | nil =>
      cases v with
      | str u =>
        simp only [insertPath] at h
        exact (Option.some.inj h) ▸ hwf
      | obj m =>
        simp only [insertPath] at h
        rw [← Option.some.inj h]
        exact wfJ_objInsert hwf (hdf seg (by simp)) (by simp [wfJ])
    | cons s2 rest =>
      cases v with
      | str u => simp [insertPath] at h
      | obj m =>
        simp only [insertPath] at h
        rcases hins : insertPath ((objFind m seg).getD (.obj [])) (s2 :: rest) t with _ | c
        · rw [hins] at h; simp at h
        · rw [hins] at h
          simp only [Option.map_some'] at h
          have hchild : wfJ ((objFind m seg).getD (.obj [])) = true := by
            rcases hfind : objFind m seg with _ | child
            · simp [wfJ]
            · simpa using wfJ_objFind hwf hfind
          have hc : wfJ c = true :=
            ih _ t _ hchild (fun s hs => hdf s (List.mem_cons_of_mem _ hs)) hins
          rw [← Option.some.inj h]
          exact wfJ_objInsert hwf (hdf seg (by simp)) hc

theorem wfJ_insertAllPaths {L : List (List Str × Str)} :
    ∀ {v v' : JValue}, wfJ v = true →
    (∀ pt ∈ L, ∀ s ∈ pt.1, dotFree s = true) →
    insertAllPaths v L = some v' → wfJ v' = true := by
  induction L with
  | nil =>
    intro v v' hwf _ h
    simp only [insertAllPaths] at h
    exact (Option.some.inj h) ▸ hwf
  | cons pt L' ih =>
    obtain ⟨p, t⟩ := pt
    intro v v' hwf hdf h
    simp only [insertAllPaths] at h
    rcases hins : insertPath v p t with _ | v1
    · rw [hins] at h; simp at h
    · rw [hins] at h
      exact ih (wfJ_insertPath p v t v1 hwf
          (fun s hs => hdf (p, t) (by simp) s hs) hins)
        (fun x hx => hdf x (List.mem_cons_of_mem _ hx)) h

theorem pathsVal_obj_ne_nil {m : List (Str × JValue)} :
    ∀ pt ∈ pathsVal (.obj m), pt.1 ≠ [] := by
  induction m with
  | nil => simp [pathsVal]
  | cons kv rest ih =>
    obtain ⟨k, v⟩ := kv
    intro pt hpt
    simp only [pathsVal] at hpt
    rcases List.mem_append.mp hpt with hm | hm
    · obtain ⟨pt0, _, hpt0⟩ := List.mem_map.mp hm
      rw [← hpt0]
      simp
    · exact ih pt hm

theorem pathsVal_dotFree {v : JValue} (hwf : wfJ v = true) :
    ∀ pt ∈ pathsVal v, ∀ s ∈ pt.1, dotFree s = true := by
  induction v using wfJ.induct with
  | case1 t => simp [pathsVal]
  | case2 => simp [pathsVal]
  | case3 k v rest ihv ihrest =>
    simp only [wfJ, Bool.and_eq_true] at hwf
    obtain ⟨⟨⟨hdf, _⟩, hv⟩, hrest⟩ := hwf
    intro pt hpt
    simp only [pathsVal] at hpt
    rcases List.mem_append.mp hpt with hm | hm
    · obtain ⟨pt0, hpt0m, hpt0⟩ := List.mem_map.mp hm
      rw [← hpt0]
      intro s hs
      rcases List.mem_cons.mp hs with hs | hs
      · rw [hs]; exact hdf
      · exact ihv hv pt0 hpt0m s hs
    · exact ihrest hrest pt hm

theorem mem_pathsVal_of_entry {m : List (Str × JValue)} {k : Str} {w : JValue}
    (hkw : (k, w) ∈ m) {pt : List Str × Str} (hpt : pt ∈ pathsVal w) :
    (k :: pt.1, pt.2) ∈ pathsVal (.obj m) := by
  induction m with
  | nil => simp at hkw
  | cons kv rest ih =>
    obtain ⟨k0, v0⟩ := kv
    simp only [pathsVal, List.mem_append]
    rcases List.mem_cons.mp hkw with hm | hm
    · left
      obtain ⟨hk, hw⟩ := Prod.mk.injEq .. ▸ hm
      subst hk; subst hw
      exact List.mem_map.mpr ⟨pt, hpt, rfl⟩
    · right
      exact ih hm

theorem pathLookup_some_mem {q : List Str} :
    ∀ {v : JValue} {u : Str}, pathLookup v q = some u → (q, u) ∈ pathsVal v := by
  induction q with
  | nil =>
    intro v u h
    cases v with
    | str s =>
      simp only [pathLookup] at h
      simp [pathsVal, Option.some.inj h]
    | obj m => simp [pathLookup_obj_nil] at h
  | cons k q' ih =>
    intro v u h
    cases v with
    | str s => simp [pathLookup] at h
    | obj m =>
      rw [pathLookup_obj_cons] at h
      rcases hfind : objFind m k with _ | w
      · rw [hfind] at h; simp at h
      · rw [hfind] at h
        exact mem_pathsVal_of_entry (objFind_mem hfind) (ih h)

theorem mem_pathLookup {v : JValue} (hwf : wfJ v = true) :
    ∀ {q : List Str} {u : Str}, (q, u) ∈ pathsVal v → pathLookup v q = some u := by
  induction v using wfJ.induct with
  | case1 t =>
    intro q u h
    simp only [pathsVal, List.mem_singleton] at h
    obtain ⟨hq, hu⟩ := Prod.mk.injEq .. ▸ h
    rw [hq, hu]
    rfl
  | case2 => intro q u h; simp [pathsVal] at h
  | case3 k v rest ihv ihrest =>
    simp only [wfJ, Bool.and_eq_true] at hwf
    obtain ⟨⟨⟨_, hnone⟩, hv⟩, hrest⟩ := hwf
    intro q u h
    simp only [pathsVal, List.mem_append] at h
    rcases h with hm | hm
    · obtain ⟨pt0, hpt0m, hpt0⟩ := List.mem_map.mp hm
      obtain ⟨hq, hu⟩ := Prod.mk.injEq .. ▸ hpt0
      rw [← hq, ← hu]
      rw [pathLookup_obj_cons]
      simp only [objFind, if_pos rfl]
      exact ihv hv hpt0m
    · have hq := ihrest hrest hm
      rcases q with _ | ⟨k1, q1⟩
      · rw [pathLookup_obj_nil] at hq; exact absurd hq (by simp)
      · by_cases hk : k = k1
        · subst hk
          rw [pathLookup_obj_cons] at hq
          rw [Option.isNone_iff_eq_none.mp hnone] at hq
          simp at hq
        · rw [pathLookup_obj_cons] at hq ⊢
          simp only [objFind, if_neg hk]
          exact hq

/-- Map lookup in the output of `flatten_json` coincides with looking the
dotted key's segment path up in the nested object, for well-formed objects. -/
theorem flatten_lookup {m : List (Str × JValue)} (hwf : wfJ (.obj m) = true)
    (s : Str) : flatFind (flatten_json m) s = pathLookup (.obj m) (splitDot s) := by
  rcases h : pathLookup (.obj m) (splitDot s) with _ | u
  · apply flatFind_eq_none
    intro kv hkv
    rw [flatten_json_eq_paths] at hkv
    obtain ⟨pt, hptm, hpt⟩ := List.mem_map.mp hkv
    intro hs
    rw [← hpt] at hs
    simp only at hs
    have hne := pathsVal_obj_ne_nil pt hptm
    have hdf := pathsVal_dotFree hwf pt hptm
    have hsplit : splitDot s = pt.1 := by
      rw [← hs, splitDot_joinDot hne hdf]
    have : pathLookup (.obj m) (splitDot s) = some pt.2 := by
      rw [hsplit]
      exact mem_pathLookup hwf (by simpa using hptm)
    rw [h] at this
    exact absurd this (by simp)
  · have hmem := pathLookup_some_mem h
    apply flatFind_eq_some
    · rw [flatten_json_eq_paths]
      refine List.mem_map.mpr ⟨(splitDot s, u), hmem, ?_⟩
      simp [joinDot_splitDot]
    · intro kv hkv hs
      rw [flatten_json_eq_paths] at hkv
      obtain ⟨pt, hptm, hpt⟩ := List.mem_map.mp hkv
      rw [← hpt] at hs ⊢
      simp only at hs ⊢
      have hne := pathsVal_obj_ne_nil pt hptm
      have hdf := pathsVal_dotFree hwf pt hptm
      have hsplit : splitDot s = pt.1 := by
        rw [← hs, splitDot_joinDot hne hdf]
      have : pathLookup (.obj m) (splitDot s) = some pt.2 := by
        rw [hsplit]
        exact mem_pathLookup hwf (by simpa using hptm)
      rw [h] at this
      exact (Option.some.inj this).symm

theorem storeFind_mem {s : List TranslationItem} {k : Str} {it : TranslationItem}
    (h : storeFind s k = some it) : it ∈ s := by
  induction s with
  | nil => simp [storeFind] at h
  | cons it0 rest ih =>
    simp only [storeFind] at h
    by_cases h0 : it0.key = k
    · rw [if_pos h0] at h
      rw [← Option.some.inj h]
      exact List.mem_cons_self _ _
    · rw [if_neg h0] at h
      exact List.mem_cons_of_mem _ (ih h)

theorem storeFind_eq_none_iff {s : List TranslationItem} {k : Str} :
    storeFind s k = none ↔ ∀ it ∈ s, it.key ≠ k := by
  induction s with
  | nil => simp [storeFind]
  | cons it0 rest ih =>
    simp only [storeFind]
    by_cases h0 : it0.key = k
    · simp [h0]
    · simp only [if_neg h0, ih]
      constructor
      · intro h it hit
        rcases List.mem_cons.mp hit with hm | hm
        · rw [hm]; exact h0
        · exact h it hm
      · intro h it hit
        exact h it (List.mem_cons_of_mem _ hit)

theorem storeLeafAt_splitDot (s : List TranslationItem) (k : Str) :
    storeLeafAt s (splitDot k) =
      match storeFind s k with
      | some it => it.target_text
      | none => none := by
  induction s with
  | nil => simp [storeLeafAt, storeFind]
  | cons it0 rest ih =>
    simp only [storeLeafAt, storeFind]
    by_cases h0 : it0.key = k
    · rw [if_pos (by rw [h0]), if_pos h0]
    · have : splitDot it0.key ≠ splitDot k := fun he => h0 (splitDot_injective he)
      rw [if_neg this, if_neg h0, ih]

theorem storeLeafAt_eq_none {s : List TranslationItem} {q : List Str}
    (h : ∀ it ∈ s, splitDot it.key ≠ q) : storeLeafAt s q = none := by
  induction s with
  | nil => rfl
  | cons it0 rest ih =>
    simp only [storeLeafAt, if_neg (h it0 (by simp))]
    exact ih fun it hit => h it (List.mem_cons_of_mem _ hit)

theorem mem_translatedEntries {s : List TranslationItem} {keys : List Str}
    {ent : List Str × Str} :
    ent ∈ translatedEntries s keys ↔
      ∃ k ∈ keys, ∃ it, storeFind s k = some it ∧
        it.target_text = some ent.2 ∧ ent.1 = splitDot k := by
  simp only [translatedEntries, List.mem_filterMap, Option.bind_eq_some,
    Option.map_eq_some']
  constructor
  · rintro ⟨k, hk, it, hfind, t, htgt, hent⟩
    exact ⟨k, hk, it, hfind, by rw [← hent]; exact htgt, by rw [← hent]⟩
  · rintro ⟨k, hk, it, hfind, htgt, hent⟩
    exact ⟨k, hk, it, hfind, ent.2, htgt, by rw [← hent]⟩

/-- Entry lookup among the inserted (path, text) pairs agrees with the leaf
the store describes, whenever the key list enumerates the store's keys. -/
theorem entFind_translatedEntries {s : List TranslationItem} {keys : List Str}
    (hkeys : ∀ k, k ∈ keys ↔ k ∈ storeKeys s) (q : List Str) :
    entFind (translatedEntries s keys) q = storeLeafAt s q := by
  by_cases hex : ∃ it ∈ s, splitDot it.key = q
  · obtain ⟨itw, hitw, hq⟩ := hex
    have hleaf : storeLeafAt s q =
        match storeFind s itw.key with
        | some it => it.target_text
        | none => none := by
      rw [← hq, storeLeafAt_splitDot]
    rcases hfind : storeFind s itw.key with _ | it0
    · exact absurd (storeFind_eq_none_iff.mp hfind itw hitw) (fun h => h rfl)
    · rw [hfind] at hleaf
      rcases htgt : it0.target_text with _ | t0
      · rw [hleaf]
        show entFind (translatedEntries s keys) q = it0.target_text
        rw [htgt]
        apply entFind_eq_none
        intro ent hent he
        obtain ⟨k', hk', it', hfind', htgt', hent'⟩ := mem_translatedEntries.mp hent
        have hkk : k' = itw.key := splitDot_injective (by rw [← hent', he, ← hq])
        rw [hkk, hfind] at hfind'
        rw [← Option.some.inj hfind'] at htgt'
        rw [htgt] at htgt'
        exact absurd htgt' (by simp)
      · rw [hleaf]
        show entFind (translatedEntries s keys) q = it0.target_text
        rw [htgt]
        apply entFind_eq_some
        · apply mem_translatedEntries.mpr
          refine ⟨itw.key, ?_, it0, hfind, htgt, hq.symm⟩
          exact (hkeys itw.key).mpr (List.mem_map_of_mem (·.key) hitw)
        · intro ent hent he
          obtain ⟨k', hk', it', hfind', htgt', hent'⟩ := mem_translatedEntries.mp hent
          have hkk : k' = itw.key := splitDot_injective (by rw [← hent', he, ← hq])
          rw [hkk, hfind] at hfind'
          rw [← Option.some.inj hfind'] at htgt'
          rw [htgt] at htgt'
          exact Option.some.inj htgt'.symm
  · push_neg at hex
    rw [storeLeafAt_eq_none hex]
    apply entFind_eq_none
    intro ent hent he
    obtain ⟨k', hk', it', hfind', htgt', hent'⟩ := mem_translatedEntries.mp hent
    exact hex it' (storeFind_mem hfind')
      (by rw [storeFind_key hfind', ← hent', he])

theorem SegApart_symm {a b : Str} (h : SegApart a b) : SegApart b a := ⟨h.2, h.1⟩

/-- Full semantics of `unflatten_to_json_value` for a store with distinct
keys whose translated keys are pairwise non-nested: it succeeds, is
well-formed, and realises exactly the leaves the store describes. -/
theorem unflatten_sem (s : List TranslationItem)
    (hnd : (storeKeys s).Nodup)
    (hpw : (translatedKeys s).Pairwise SegApart) :
    ∃ m', unflatten_to_json_value s = some (.obj m') ∧ wfJ (.obj m') = true ∧
      ∀ q, pathLookup (.obj m') q = storeLeafAt s q := by
  set keys := List.insertionSort (fun a b => strLe a b = true) (storeKeys s) with hkeysdef
  have hperm : keys.Perm (storeKeys s) :=
    List.perm_insertionSort (fun a b => strLe a b = true) (storeKeys s)
  set f : Str → Option (List Str × Str) := fun k =>
    (storeFind s k).bind fun it => it.target_text.map fun t => (splitDot k, t)
    with hfdef
  have hL : translatedEntries s keys = keys.filterMap f := rfl
  -- every inserted path is nonempty
  have hne : ∀ pt ∈ translatedEntries s keys, pt.1 ≠ [] := by
    intro pt hpt
    obtain ⟨k, _, it, _, _, hent⟩ := mem_translatedEntries.mp hpt
    rw [hent]
    exact splitDot_ne_nil k
  -- pairwise non-nesting of the inserted paths
  have hpwL : (translatedEntries s keys).Pairwise
      (fun a b => ¬ (a.1 <+: b.1) ∧ ¬ (b.1 <+: a.1)) := by
    rw [hL, List.pairwise_filterMap]
    have hsym : ∀ {x y : Str},
        (∀ b ∈ f x, ∀ b' ∈ f y, ¬ (b.1 <+: b'.1) ∧ ¬ (b'.1 <+: b.1)) →
        (∀ b ∈ f y, ∀ b' ∈ f x, ¬ (b.1 <+: b'.1) ∧ ¬ (b'.1 <+: b.1)) := by
      intro x y h b hb b' hb'
      exact ⟨(h b' hb' b hb).2, (h b' hb' b hb).1⟩
    rw [List.Perm.pairwise_iff hsym hperm]
    have hmap : storeKeys s = s.map (·.key) := rfl
    rw [hmap, List.pairwise_map]
    have hpw2 := List.pairwise_filterMap.mp hpw
    apply List.Pairwise.imp_of_mem _ hpw2
    intro it it' hit hit' hr
    intro b hb b' hb'
    simp only [hfdef, Option.mem_def, Option.bind_eq_some, Option.map_eq_some'] at hb hb'
    obtain ⟨j, hj, t, ht, hbeq⟩ := hb
    obtain ⟨j', hj', t', ht', hbeq'⟩ := hb'
    rw [storeFind_of_mem hnd hit] at hj
    rw [storeFind_of_mem hnd hit'] at hj'
    rw [← Option.some.inj hj] at ht
    rw [← Option.some.inj hj'] at ht'
    have hg : it.key ∈ (if it.target_text.isSome then some it.key else none : Option Str) := by
      simp [ht]
    have hg' : it'.key ∈ (if it'.target_text.isSome then some it'.key else none : Option Str) := by
      simp [ht']
    have := hr it.key hg it'.key hg'
    rw [← hbeq, ← hbeq']
    exact this
  -- the initial empty object conflicts with nothing
  obtain ⟨m', hins, hsem⟩ := insertAllPaths_sem (translatedEntries s keys) []
    hne hpwL
    (by intro q u h; rw [pathLookup_emptyObj] at h; exact absurd h (by simp))
  refine ⟨m', hins, ?_, ?_⟩
  · -- well-formedness
    apply wfJ_insertAllPaths (v := .obj []) (by simp [wfJ]) _ hins
    intro pt hpt seg hseg
    obtain ⟨k, _, it, _, _, hent⟩ := mem_translatedEntries.mp hpt
    rw [hent] at hseg
    exact splitDot_dotFree k seg hseg
  · intro q
    rw [hsem q]
    have hkeys : ∀ k, k ∈ keys ↔ k ∈ storeKeys s := fun k => hperm.mem_iff
    rw [← entFind_translatedEntries hkeys q]
    rcases entFind (translatedEntries s keys) q with _ | t
    · exact pathLookup_emptyObj q
    · rfl

theorem translatedKeys_of_all {s : List TranslationItem}
    (hall : ∀ it ∈ s, it.target_text.isSome = true) :
    translatedKeys s = storeKeys s := by
  induction s with
  | nil => rfl
  | cons it rest ih =>
    have hit : it.target_text.isSome = true := hall it (by simp)
    simp only [translatedKeys, List.filterMap_cons, hit, if_pos rfl]
    rw [show storeKeys (it :: rest) = it.key :: storeKeys rest from rfl]
    rw [← ih fun x hx => hall x (List.mem_cons_of_mem _ hx)]
    rfl

theorem nodup_of_pairwise_SegApart {l : List Str}
    (h : l.Pairwise SegApart) : l.Nodup :=
  h.imp fun hab he => absurd (he ▸ List.prefix_refl _) hab.1

/-- C2 (amended): for every store with every target set whose keys are
pairwise segment-wise non-nested, flattening the document produced by
unflattening yields exactly the store's key-to-target-text mapping. -/
theorem flatten_unflatten_roundtrip (s : List TranslationItem)
    (hall : ∀ it ∈ s, it.target_text.isSome = true)
    (hpw : (storeKeys s).Pairwise SegApart) :
    ∃ m', unflatten_to_json_value s = some (.obj m') ∧
      ∀ k, flatFind (flatten_json m') k = (storeFind s k).bind (·.target_text) := by
  obtain ⟨m', hins, hwf, hsem⟩ := unflatten_sem s (nodup_of_pairwise_SegApart hpw)
    (by rw [translatedKeys_of_all hall]; exact hpw)
  refine ⟨m', hins, ?_⟩
  intro k
  rw [flatten_lookup hwf, hsem, storeLeafAt_splitDot]
  rcases storeFind s k with _ | it <;> rfl

/-- Witness for C2's amended round trip at a one-item store. -/
theorem flatten_unflatten_roundtrip_witness :
    flatFind (flatten_json [(strOf "a", JValue.str (strOf "x"))]) (strOf "a") =
      some (strOf "x") := by
  obtain ⟨m', hins, hsem⟩ := flatten_unflatten_roundtrip
    [⟨strOf "a", strOf "s", some (strOf "x")⟩] (by decide) (by decide)
  have h0 : unflatten_to_json_value [⟨strOf "a", strOf "s", some (strOf "x")⟩] =
      some (.obj [(strOf "a", JValue.str (strOf "x"))]) := rfl
  rw [h0] at hins
  have hm : [(strOf "a", JValue.str (strOf "x"))] = m' := by
    injection Option.some.inj hins
  rw [← hm] at hsem
  rw [hsem (strOf "a")]
  decide

/-- C2 counterexample: in a store whose every target is set but where the key
`a` is a segment-wise proper pre-path of `a.b`, unflattening silently drops
`a.b`, so flattening back does not reproduce the original mapping. -/
theorem flatten_unflatten_roundtrip_cex :
    (nestedStore.all fun it => it.target_text.isSome) = true ∧
    unflatten_to_json_value nestedStore =
      some (.obj [(strOf "a", .str (strOf "x"))]) ∧
    flatFind (flatten_json [(strOf "a", JValue.str (strOf "x"))]) (strOf "a.b") =
      none ∧
    (storeFind nestedStore (strOf "a.b")).bind (·.target_text) =
      some (strOf "y") := by
  refine ⟨by decide, rfl, ?_, by decide⟩
  have h : flatten_json [(strOf "a", JValue.str (strOf "x"))] =
      [(strOf "a", strOf "x")] := by
    simp [flatten_json, flatten_recursive]
  rw [h]
  decide

/-- C8 (amended): for every store with distinct keys whose translated keys
are pairwise segment-wise non-nested, the unflattened document has a leaf
with the item's text exactly at the keys whose target is set; unset items
are entirely omitted. -/
theorem unflatten_omits_unset (s : List TranslationItem)
    (hnd : (storeKeys s).Nodup)
    (hpw : (translatedKeys s).Pairwise SegApart) :
    ∃ m', unflatten_to_json_value s = some (.obj m') ∧
      (∀ it ∈ s, pathLookup (.obj m') (splitDot it.key) = it.target_text) ∧
      ∀ q, pathLookup (.obj m') q = storeLeafAt s q := by
  obtain ⟨m', hins, _, hsem⟩ := unflatten_sem s hnd hpw
  refine ⟨m', hins, ?_, hsem⟩
  intro it hit
  rw [hsem, storeLeafAt_splitDot, storeFind_of_mem hnd hit]

/-- Witness for C8's amended exactness at a two-item store with one unset
item: the set key gets its leaf, the unset key is omitted. -/
theorem unflatten_omits_unset_witness :
    unflattenLeaf [⟨strOf "a", strOf "s1", some (strOf "x")⟩,
      ⟨strOf "b", strOf "s2", none⟩] (strOf "a") = some (strOf "x") ∧
    unflattenLeaf [⟨strOf "a", strOf "s1", some (strOf "x")⟩,
      ⟨strOf "b", strOf "s2", none⟩] (strOf "b") = none := by
  obtain ⟨m', hins, hitems, _⟩ := unflatten_omits_unset
    [⟨strOf "a", strOf "s1", some (strOf "x")⟩, ⟨strOf "b", strOf "s2", none⟩]
    (by decide) (by decide)
  have ha := hitems ⟨strOf "a", strOf "s1", some (strOf "x")⟩ (by simp)
  have hb := hitems ⟨strOf "b", strOf "s2", none⟩ (by simp)
  constructor
  · simp only [unflattenLeaf, hins]
    exact ha
  · simp only [unflattenLeaf, hins]
    exact hb

/-- C8 counterexample: with the key `a` a segment-wise pre-path of `a.b` and
both targets set, the item `a.b` has its target set yet the unflattened
document contains no leaf for it. -/
theorem unflatten_omits_unset_cex :
    (storeFind nestedStore (strOf "a.b")).map (·.is_translated) = some true ∧
    unflattenLeaf nestedStore (strOf "a.b") = none := by
  exact ⟨by decide, rfl⟩

section TreeNodeAccessors

variable (k f : Str) (t : Option TranslationItem) (c : List TreeNode) (e b : Bool)

@[simp] theorem TreeNode.key_segment_mk : (TreeNode.mk k f t c e b).key_segment = k := rfl

@[simp] theorem TreeNode.full_path_mk : (TreeNode.mk k f t c e b).full_path = f := rfl

@[simp] theorem TreeNode.translation_mk : (TreeNode.mk k f t c e b).translation = t := rfl

@[simp] theorem TreeNode.children_mk : (TreeNode.mk k f t c e b).children = c := rfl

@[simp] theorem TreeNode.expanded_mk : (TreeNode.mk k f t c e b).expanded = e := rfl

@[simp] theorem TreeNode.fully_translated_mk :
    (TreeNode.mk k f t c e b).fully_translated = b := rfl

end TreeNodeAccessors

section WithAccessors

variable (n : TreeNode) (t : Option TranslationItem) (c : List TreeNode) (e b : Bool)

@[simp] theorem TreeNode.withStatus_key : (n.withStatus b).key_segment = n.key_segment := by
  cases n; rfl

@[simp] theorem TreeNode.withStatus_path : (n.withStatus b).full_path = n.full_path := by
  cases n; rfl

@[simp] theorem TreeNode.withStatus_translation :
    (n.withStatus b).translation = n.translation := by cases n; rfl

@[simp] theorem TreeNode.withStatus_children : (n.withStatus b).children = n.children := by
  cases n; rfl

@[simp] theorem TreeNode.withStatus_expanded : (n.withStatus b).expanded = n.expanded := by
  cases n; rfl

@[simp] theorem TreeNode.withStatus_status : (n.withStatus b).fully_translated = b := by
  cases n; rfl

@[simp] theorem TreeNode.withChildren_key : (n.withChildren c).key_segment = n.key_segment := by
  cases n; rfl

@[simp] theorem TreeNode.withChildren_path : (n.withChildren c).full_path = n.full_path := by
  cases n; rfl

@[simp] theorem TreeNode.withChildren_translation :
    (n.withChildren c).translation = n.translation := by cases n; rfl

@[simp] theorem TreeNode.withChildren_children : (n.withChildren c).children = c := by
  cases n; rfl

@[simp] theorem TreeNode.withChildren_expanded : (n.withChildren c).expanded = n.expanded := by
  cases n; rfl

@[simp] theorem TreeNode.withChildren_status :
    (n.withChildren c).fully_translated = n.fully_translated := by cases n; rfl

@[simp] theorem TreeNode.withTranslation_key :
    (n.withTranslation t).key_segment = n.key_segment := by cases n; rfl

@[simp] theorem TreeNode.withTranslation_path :
    (n.withTranslation t).full_path = n.full_path := by cases n; rfl

@[simp] theorem TreeNode.withTranslation_translation :
    (n.withTranslation t).translation = t := by cases n; rfl

@[simp] theorem TreeNode.withTranslation_children :
    (n.withTranslation t).children = n.children := by cases n; rfl

@[simp] theorem TreeNode.withTranslation_expanded :
    (n.withTranslation t).expanded = n.expanded := by cases n; rfl

@[simp] theorem TreeNode.withTranslation_status :
    (n.withTranslation t).fully_translated = n.fully_translated := by cases n; rfl

@[simp] theorem TreeNode.withExpanded_key :
    (n.withExpanded e).key_segment = n.key_segment := by cases n; rfl

@[simp] theorem TreeNode.withExpanded_path :
    (n.withExpanded e).full_path = n.full_path := by cases n; rfl

@[simp] theorem TreeNode.withExpanded_translation :
    (n.withExpanded e).translation = n.translation := by cases n; rfl

@[simp] theorem TreeNode.withExpanded_children :
    (n.withExpanded e).children = n.children := by cases n; rfl

@[simp] theorem TreeNode.withExpanded_status :
    (n.withExpanded e).fully_translated = n.fully_translated := by cases n; rfl

theorem TreeNode.withChildren_self : n.withChildren n.children = n := by cases n; rfl

end WithAccessors

/-! ## C5: the viewport offset invariants -/

/-- C5: with a viewport of height at least 2 and at least one visible row,
the stay-centered offset is never negative, never exceeds
`num_items - height` when the list is longer than the window, and is 0 when
the whole list fits; with height 2, 3 rows and row 2 selected it is 1. -/
theorem render_key_list_offset_bounds (selected_index num_items height : Nat)
    (hh : 2 ≤ height) (hn : 1 ≤ num_items) :
    0 ≤ render_key_list_offset selected_index num_items height ∧
    (num_items > height →
      render_key_list_offset selected_index num_items height ≤ num_items - height) ∧
    (num_items ≤ height → render_key_list_offset selected_index num_items height = 0) ∧
    render_key_list_offset 2 3 2 = 1 := by
  refine ⟨Nat.zero_le _, ?_, ?_, by decide⟩
  · intro hgt
    unfold render_key_list_offset
    rw [if_pos (show 1 < height ∧ 0 < num_items by omega), if_pos hgt]
    exact min_le_right _ _
  · intro hle
    unfold render_key_list_offset
    rw [if_pos (show 1 < height ∧ 0 < num_items by omega),
      if_neg (show ¬ num_items > height by omega)]

/-- Witness for C5 at concrete viewports. -/
theorem render_key_list_offset_bounds_witness :
    render_key_list_offset 2 3 2 ≤ 3 - 2 ∧
    render_key_list_offset 5 2 4 = 0 ∧
    render_key_list_offset 2 3 2 = 1 := by
  refine ⟨?_, ?_, ?_⟩
  · exact (render_key_list_offset_bounds 2 3 2 (by decide) (by decide)).2.1 (by decide)
  · exact (render_key_list_offset_bounds 5 2 4 (by decide) (by decide)).2.2.1 (by decide)
  · exact (render_key_list_offset_bounds 0 1 2 (by decide) (by decide)).2.2.2

/-! ## C9: `App::next` on an empty visible list -/

/-- C9: with an empty visible list, `visible_nodes.len() - 1` underflows to
`usize::MAX`, so `next` still increments the selection (landing on an index
no empty list can have); with a nonempty list and an in-range selection the
result stays in range, so the operation is safe exactly under that
precondition. -/
theorem next_underflow_on_empty :
    usize_wrapping_sub_one 0 = 2 ^ 64 - 1 ∧
    (∀ sel, sel < 2 ^ 64 - 1 → next 0 sel = sel + 1) ∧
    (∀ len sel, 0 < len → sel < len → next len sel < len) := by
  refine ⟨rfl, ?_, ?_⟩
  · intro sel hsel
    unfold next usize_wrapping_sub_one
    rw [if_pos rfl, if_pos hsel]
  · intro len sel hlen hsel
    have h1 : usize_wrapping_sub_one len = len - 1 := by
      unfold usize_wrapping_sub_one
      rw [if_neg (by omega)]
    unfold next
    rw [h1]
    split <;> omega

/-- Witness for C9 at concrete lengths. -/
theorem next_underflow_on_empty_witness :
    next 0 0 = 0 + 1 ∧ next 3 2 < 3 := by
  exact ⟨next_underflow_on_empty.2.1 0 (by decide),
    next_underflow_on_empty.2.2 3 2 (by decide) (by decide)⟩

/-! ## C3: selection clamping in `update_visible_nodes` -/

/-- C3 (amended): regenerating the visible list clamps an out-of-range
selection to the last valid index when the new list is nonempty; when the
new list is empty the selection is left unchanged (the code's guard skips
the assignment, it does not reset to 0). -/
theorem update_visible_nodes_clamps (tree : List TreeNode) (sel : Nat) :
    (update_visible_nodes tree sel).1 = generate_visible_list_recursive tree 0 ∧
    (generate_visible_list_recursive tree 0 ≠ [] →
      sel ≥ (generate_visible_list_recursive tree 0).length →
      (update_visible_nodes tree sel).2 =
        (generate_visible_list_recursive tree 0).length - 1) ∧
    (sel < (generate_visible_list_recursive tree 0).length →
      (update_visible_nodes tree sel).2 = sel) ∧
    (generate_visible_list_recursive tree 0 = [] →
      (update_visible_nodes tree sel).2 = sel) := by
  refine ⟨?_, ?_, ?_, ?_⟩
  · simp only [update_visible_nodes]
    split <;> rfl
  · intro hne hge
    simp only [update_visible_nodes]
    rw [if_pos ⟨hge, hne⟩]
  · intro hlt
    simp only [update_visible_nodes]
    rw [if_neg (fun h => absurd h.1 (by omega))]
  · intro hv
    simp only [update_visible_nodes]
    rw [if_neg (fun h => h.2 hv)]

/-- Witness for C3's amended clamping at concrete lists. -/
theorem update_visible_nodes_clamps_witness :
    (update_visible_nodes [TreeNode.mk (strOf "a") (strOf "a") none [] false false] 5).2 = 0 ∧
    (update_visible_nodes ([] : List TreeNode) 3).2 = 3 ∧
    (update_visible_nodes [TreeNode.mk (strOf "a") (strOf "a") none [] false false] 0).2 = 0 := by
  have hv : generate_visible_list_recursive
      [TreeNode.mk (strOf "a") (strOf "a") none [] false false] 0 = [(strOf "a", 0)] := by
    simp [generate_visible_list_recursive]
  refine ⟨?_, ?_, ?_⟩
  · have h := (update_visible_nodes_clamps
        [TreeNode.mk (strOf "a") (strOf "a") none [] false false] 5).2.1
        (by rw [hv]; simp) (by rw [hv]; simp)
    rw [hv] at h
    simpa using h
  · exact (update_visible_nodes_clamps [] 3).2.2.2 (by simp [generate_visible_list_recursive])
  · exact (update_visible_nodes_clamps
        [TreeNode.mk (strOf "a") (strOf "a") none [] false false] 0).2.2.1
      (by rw [hv]; simp)

/-- C3 counterexample: with an empty forest the visible list is empty, yet a
previously out-of-range selection index 1 is left at 1 — the code does not
reset it to 0. -/
theorem update_visible_nodes_cex :
    generate_visible_list_recursive ([] : List TreeNode) 0 = [] ∧
    (update_visible_nodes ([] : List TreeNode) 1).2 = 1 := by
  constructor
  · simp [generate_visible_list_recursive]
  · simp [update_visible_nodes, generate_visible_list_recursive]

theorem update_node_translation_status_length (ns : List TreeNode) :
    (update_node_translation_status ns).1.length = ns.length := by
  induction ns using update_node_translation_status.induct with
  | case1 => simp [update_node_translation_status]
  | case2 n ns ihc ihns => simp [update_node_translation_status, ihns]

theorem update_node_translation_status_spec (ns : List TreeNode) :
    status_invariant (update_node_translation_status ns).1 = true ∧
    (update_node_translation_status ns).2 =
      ((update_node_translation_status ns).1.all fun n => n.fully_translated) := by
  induction ns using update_node_translation_status.induct with
  | case1 => simp [update_node_translation_status, status_invariant]
  | case2 n ns ihc ihns =>
    simp only [update_node_translation_status]
    by_cases hleaf : n.is_leaf
    · simp only [if_pos hleaf]
      constructor
      · simp only [status_invariant]
        rw [if_pos (show (n.withStatus _).is_leaf by
          simpa [TreeNode.is_leaf] using hleaf)]
        simp [ihns.1]
      · simp [List.all_cons, ihns.2]
    · simp only [if_neg hleaf]
      constructor
      · simp only [status_invariant]
        rw [if_neg (show ¬ ((n.withChildren
            (update_node_translation_status n.children).1).withStatus
            (update_node_translation_status n.children).2).is_leaf from ?_)]
        · simp only [TreeNode.withStatus_status, TreeNode.withStatus_children,
            TreeNode.withChildren_children]
          rw [(ihc hleaf).2]
          simp [(ihc hleaf).1, ihns.1]
        · simp only [TreeNode.is_leaf, TreeNode.withStatus_children,
            TreeNode.withChildren_children]
          intro hc
          apply hleaf
          simp only [TreeNode.is_leaf, List.isEmpty_iff] at hc ⊢
          have hlen := congrArg List.length
            (show (update_node_translation_status n.children).1 = [] from hc)
          rw [update_node_translation_status_length] at hlen
          exact List.length_eq_zero.mp (by simpa using hlen)
      · simp [List.all_cons, ihns.2]

/-- C1 (amended): after `update_node_translation_status` re-annotates any
forest, every leaf's `fully_translated` flag is true iff the leaf carries a
translation whose `target_text` is set (an empty string still counts as
set), and every inner node's flag is the AND of its children's flags. -/
theorem update_node_translation_status_invariant_holds (ns : List TreeNode) :
    status_invariant (update_node_translation_status ns).1 = true :=
  (update_node_translation_status_spec ns).1

/-- C1 counterexample: a leaf whose target text is the empty string is
marked fully translated by the propagation, where the claim requires an
empty target to count as untranslated. -/
theorem update_node_translation_status_cex :
    ((update_node_translation_status (build_tree
        [⟨strOf "a", strOf "s", some []⟩])).1.getD 0 emptyTreeNode).is_leaf = true ∧
    ((update_node_translation_status (build_tree
        [⟨strOf "a", strOf "s", some []⟩])).1.getD 0 emptyTreeNode).translation =
      some ⟨strOf "a", strOf "s", some []⟩ ∧
    ((update_node_translation_status (build_tree
        [⟨strOf "a", strOf "s", some []⟩])).1.getD 0 emptyTreeNode).fully_translated =
      true := by
  have hb : build_tree [⟨strOf "a", strOf "s", some []⟩] =
      [TreeNode.mk (strOf "a") (strOf "a")
        (some ⟨strOf "a", strOf "s", some []⟩) [] false false] := rfl
  have hu : update_node_translation_status
      [TreeNode.mk (strOf "a") (strOf "a")
        (some ⟨strOf "a", strOf "s", some []⟩) [] false false] =
      ([TreeNode.mk (strOf "a") (strOf "a")
        (some ⟨strOf "a", strOf "s", some []⟩) [] false true], true) := by
    simp [update_node_translation_status, TreeNode.is_leaf,
      TranslationItem.is_translated, TreeNode.withStatus]
  rw [hb, hu]
  exact ⟨rfl, rfl, rfl⟩

/-! ## C6: focus preservation under expand/collapse -/

/-- C6: toggling the selected row leaves the selection on the same
`full_path` whenever that path still appears in the regenerated visible
list: the selection becomes the index of its first occurrence there. -/
theorem toggle_expand_focus (st : AppState) (pd : Str × Nat)
    (hpd : st.visible_nodes.get? st.selected_index = some pd)
    (hvis : pd.1 ∈ (toggle_expand st).visible_nodes.map Prod.fst) :
    ∃ d, (toggle_expand st).visible_nodes.get? (toggle_expand st).selected_index =
      some (pd.1, d) := by
  simp only [toggle_expand, hpd] at hvis ⊢
  set tree' := modify_node st.tree pd.1
    (fun n => if n.is_leaf then n else n.withExpanded (!n.expanded)) with htree
  set L := (update_visible_nodes tree' st.selected_index).1 with hL
  set p : Str × Nat → Bool := fun x => decide (x.1 = pd.1) with hp
  obtain ⟨x, hxL, hx1⟩ := List.mem_map.mp hvis
  rcases hidx : L.findIdx? p with _ | i
  · have := List.findIdx?_eq_none_iff.mp hidx x hxL
    rw [hp] at this
    simp [hx1] at this
  · obtain ⟨hlt, hfi⟩ := List.findIdx?_eq_some_iff_findIdx_eq.mp hidx
    have hpL : p (L.get ⟨i, hlt⟩) = true := by
      have := @List.findIdx_getElem _ p L (by rw [hfi]; exact hlt)
      simp only [hfi] at this
      simpa using this
    rw [hp] at hpL
    simp only [decide_eq_true_eq] at hpL
    show ∃ d, L.get? i = some (pd.1, d)
    refine ⟨(L.get ⟨i, hlt⟩).2, ?_⟩
    rw [List.get?_eq_getElem?, List.getElem?_eq_getElem hlt]
    have heta : (pd.1, (L.get ⟨i, hlt⟩).2) = L.get ⟨i, hlt⟩ := by
      rw [← hpL]
    rw [heta]
    rfl

theorem update_visible_nodes_fst (tree : List TreeNode) (sel : Nat) :
    (update_visible_nodes tree sel).1 = generate_visible_list_recursive tree 0 := by
  simp only [update_visible_nodes]
  split <;> rfl

theorem toggle_expand_visible (st : AppState) (pd : Str × Nat)
    (hpd : st.visible_nodes.get? st.selected_index = some pd) :
    (toggle_expand st).visible_nodes =
      generate_visible_list_recursive (toggle_expand st).tree 0 := by
  simp only [toggle_expand, hpd]
  exact update_visible_nodes_fst _ _

/-- Witness for C6: expanding the collapsed root `a` of a two-level forest
keeps the selection on `a`. -/
theorem toggle_expand_focus_witness :
    (((toggle_expand
        ⟨[TreeNode.mk (strOf "a") (strOf "a") none
            [TreeNode.mk (strOf "b") (strOf "a.b") none [] false false] false false],
          [(strOf "a", 0)], 0⟩).visible_nodes.get?
        (toggle_expand
        ⟨[TreeNode.mk (strOf "a") (strOf "a") none
            [TreeNode.mk (strOf "b") (strOf "a.b") none [] false false] false false],
          [(strOf "a", 0)], 0⟩).selected_index).map Prod.fst) = some (strOf "a") := by
  have htree : (toggle_expand
      ⟨[TreeNode.mk (strOf "a") (strOf "a") none
          [TreeNode.mk (strOf "b") (strOf "a.b") none [] false false] false false],
        [(strOf "a", 0)], 0⟩).tree =
      [TreeNode.mk (strOf "a") (strOf "a") none
        [TreeNode.mk (strOf "b") (strOf "a.b") none [] false false] true false] := rfl
  have hv : (toggle_expand
      ⟨[TreeNode.mk (strOf "a") (strOf "a") none
          [TreeNode.mk (strOf "b") (strOf "a.b") none [] false false] false false],
        [(strOf "a", 0)], 0⟩).visible_nodes =
      [(strOf "a", 0), (strOf "a.b", 1)] := by
    rw [toggle_expand_visible
      ⟨[TreeNode.mk (strOf "a") (strOf "a") none
          [TreeNode.mk (strOf "b") (strOf "a.b") none [] false false] false false],
        [(strOf "a", 0)], 0⟩ (strOf "a", 0) rfl, htree]
    simp [generate_visible_list_recursive]
  obtain ⟨d, hd⟩ := toggle_expand_focus
    ⟨[TreeNode.mk (strOf "a") (strOf "a") none
        [TreeNode.mk (strOf "b") (strOf "a.b") none [] false false] false false],
      [(strOf "a", 0)], 0⟩ (strOf "a", 0) rfl
    (by rw [hv]; simp)
  rw [hd]
  rfl

/-! ## C10: committing the editor text -/

theorem findNode_mapFirst_self (ns : List TreeNode) (seg : Str) (f : TreeNode → TreeNode)
    (hf : ∀ n, (f n).key_segment = n.key_segment) :
    findNode (mapFirst ns seg f) seg = (findNode ns seg).map f := by
  induction ns with
  | nil => rfl
  | cons n ns ih =>
    by_cases hk : n.key_segment = seg
    · simp [mapFirst, findNode, hk, hf]
    · simp only [mapFirst, findNode, if_neg hk]
      exact ih

theorem get_node_segs_modify (p : List Str) :
    ∀ (nodes : List TreeNode) (f : TreeNode → TreeNode),
    (∀ n, (f n).key_segment = n.key_segment) →
    get_node_segs (modify_node_segs nodes p f) p = (get_node_segs nodes p).map f := by
  induction p with
  | nil => intro nodes f _; rfl
  | cons seg ps ih =>
    intro nodes f hf
    cases ps with
    | nil =>
      simp only [modify_node_segs, get_node_segs]
      exact findNode_mapFirst_self nodes seg f hf
    | cons s2 rest =>
      simp only [modify_node_segs, get_node_segs]
      rw [findNode_mapFirst_self nodes seg _ (fun n => by simp)]
      rcases findNode nodes seg with _ | n
      · rfl
      · simp only [Option.map_some']
        rw [TreeNode.withChildren_children]
        exact ih n.children f hf

theorem findNode_upd (ns : List TreeNode) (seg : Str) :
    (findNode ns seg = none ∧
      findNode (update_node_translation_status ns).1 seg = none) ∨
    ∃ n b, findNode ns seg = some n ∧
      findNode (update_node_translation_status ns).1 seg =
        some ((n.withChildren (update_node_translation_status n.children).1).withStatus b) := by
  induction ns using update_node_translation_status.induct with
  | case1 =>
    left
    exact ⟨rfl, by simp [update_node_translation_status, findNode]⟩
  | case2 n ns ihc ihns =>
    simp only [update_node_translation_status]
    by_cases hk : n.key_segment = seg
    · right
      by_cases hleaf : n.is_leaf
      · have hcn : n.children = [] := by
          simpa [TreeNode.is_leaf, List.isEmpty_iff] using hleaf
        refine ⟨n, (match n.translation with
          | some t => t.is_translated
          | none => false), by simp [findNode, hk], ?_⟩
        simp only [if_pos hleaf, findNode]
        rw [if_pos (by simp [hk])]
        rw [hcn]
        rw [show (update_node_translation_status []).1 = [] by
            simp [update_node_translation_status]]
        rw [← hcn, TreeNode.withChildren_self]
      · refine ⟨n, (update_node_translation_status n.children).2,
          by simp [findNode, hk], ?_⟩
        simp only [if_neg hleaf, findNode]
        rw [if_pos (by simp [hk])]
    · simp only [findNode, if_neg hk]
      rcases ihns with ⟨h1, h2⟩ | ⟨n0, b, h1, h2⟩
      · left
        refine ⟨h1, ?_⟩
        split <;> (rw [if_neg (by simp [hk]), h2])
      · right
        refine ⟨n0, b, h1, ?_⟩
        split <;> (rw [if_neg (by simp [hk]), h2])

theorem get_node_segs_upd (p : List Str) :
    ∀ ns : List TreeNode,
    (get_node_segs (update_node_translation_status ns).1 p).map (·.translation) =
      (get_node_segs ns p).map (·.translation) := by
  induction p with
  | nil => intro ns; rfl
  | cons seg ps ih =>
    intro ns
    cases ps with
    | nil =>
      simp only [get_node_segs]
      rcases findNode_upd ns seg with ⟨h1, h2⟩ | ⟨n, b, h1, h2⟩
      · rw [h1, h2]
      · rw [h1, h2]
        simp
    | cons s2 rest =>
      simp only [get_node_segs]
      rcases findNode_upd ns seg with ⟨h1, h2⟩ | ⟨n, b, h1, h2⟩
      · rw [h1, h2]
      · rw [h1, h2]
        simp only [TreeNode.withStatus_children, TreeNode.withChildren_children]
        exact ih n.children

theorem storeFind_storeUpdate_self (store : List TranslationItem) (k : Str)
    (t : Option Str) :
    storeFind (storeUpdate store k t) k = (storeFind store k).map (·.withTarget t) := by
  induction store with
  | nil => rfl
  | cons it rest ih =>
    by_cases hk : it.key = k
    · simp only [storeUpdate, if_pos hk, storeFind, TranslationItem.withTarget]
      rfl
    · simp only [storeUpdate, if_neg hk, storeFind]
      exact ih

/-- C10: with a selected path whose store entry and tree leaf both exist,
committing the editor text writes `Some(text)` when the text is nonempty and
`None` when it is empty, to the store entry and to the leaf's cached
translation alike. -/
theorem save_textarea_to_translation_commits
    (store : List TranslationItem) (tree : List TreeNode) (path : Str)
    (new_text : Str) (it : TranslationItem) (n : TreeNode) (ti : TranslationItem)
    (hstore : storeFind store path = some it)
    (hnode : get_node tree path = some n)
    (hti : n.translation = some ti) :
    storeFind (save_textarea_to_translation store tree (some path) new_text).1 path =
      some (it.withTarget (if new_text.isEmpty then none else some new_text)) ∧
    (get_node (save_textarea_to_translation store tree (some path) new_text).2
        path).map (·.translation) =
      some (some (ti.withTarget (if new_text.isEmpty then none else some new_text))) := by
  constructor
  · show storeFind (storeUpdate store path _) path = _
    rw [storeFind_storeUpdate_self, hstore]
    rfl
  · show (get_node_segs (update_node_translation_status
        (modify_node_segs tree (splitDot path) _)).1 (splitDot path)).map
        (·.translation) = _
    rw [get_node_segs_upd]
    rw [get_node_segs_modify (splitDot path) tree _
      (fun m => by cases hm : m.translation <;> simp)]
    rw [show get_node_segs tree (splitDot path) = some n from hnode]
    simp only [Option.map_some']
    rw [hti]
    simp

/-- Witness for C10 at a one-leaf forest: a nonempty text is stored as
`some`, the empty text as `none`, in both the store and the tree leaf. -/
theorem save_textarea_to_translation_commits_witness :
    (storeFind (save_textarea_to_translation
        [⟨strOf "a", strOf "s", none⟩]
        [TreeNode.mk (strOf "a") (strOf "a") (some ⟨strOf "a", strOf "s", none⟩) [] false false]
        (some (strOf "a")) (strOf "hi")).1 (strOf "a") =
      some ((⟨strOf "a", strOf "s", none⟩ : TranslationItem).withTarget
        (if (strOf "hi").isEmpty then none else some (strOf "hi")))) ∧
    ((get_node (save_textarea_to_translation
        [⟨strOf "a", strOf "s", none⟩]
        [TreeNode.mk (strOf "a") (strOf "a") (some ⟨strOf "a", strOf "s", none⟩) [] false false]
        (some (strOf "a")) (strOf "hi")).2 (strOf "a")).map (·.translation) =
      some (some ((⟨strOf "a", strOf "s", none⟩ : TranslationItem).withTarget
        (if (strOf "hi").isEmpty then none else some (strOf "hi"))))) ∧
    (storeFind (save_textarea_to_translation
        [⟨strOf "a", strOf "s", some (strOf "x")⟩]
        [TreeNode.mk (strOf "a") (strOf "a")
          (some ⟨strOf "a", strOf "s", some (strOf "x")⟩) [] false false]
        (some (strOf "a")) []).1 (strOf "a") =
      some ((⟨strOf "a", strOf "s", some (strOf "x")⟩ : TranslationItem).withTarget
        (if ([] : Str).isEmpty then none else some []))) ∧
    ((get_node (save_textarea_to_translation
        [⟨strOf "a", strOf "s", some (strOf "x")⟩]
        [TreeNode.mk (strOf "a") (strOf "a")
          (some ⟨strOf "a", strOf "s", some (strOf "x")⟩) [] false false]
        (some (strOf "a")) []).2 (strOf "a")).map (·.translation) =
      some (some ((⟨strOf "a", strOf "s", some (strOf "x")⟩ : TranslationItem).withTarget
        (if ([] : Str).isEmpty then none else some [])))) := by
  have h1 := save_textarea_to_translation_commits
    [⟨strOf "a", strOf "s", none⟩]
    [TreeNode.mk (strOf "a") (strOf "a") (some ⟨strOf "a", strOf "s", none⟩) [] false false]
    (strOf "a") (strOf "hi") ⟨strOf "a", strOf "s", none⟩
    (TreeNode.mk (strOf "a") (strOf "a") (some ⟨strOf "a", strOf "s", none⟩) [] false false)
    ⟨strOf "a", strOf "s", none⟩ rfl rfl rfl
  have h2 := save_textarea_to_translation_commits
    [⟨strOf "a", strOf "s", some (strOf "x")⟩]
    [TreeNode.mk (strOf "a") (strOf "a")
      (some ⟨strOf "a", strOf "s", some (strOf "x")⟩) [] false false]
    (strOf "a") [] ⟨strOf "a", strOf "s", some (strOf "x")⟩
    (TreeNode.mk (strOf "a") (strOf "a")
      (some ⟨strOf "a", strOf "s", some (strOf "x")⟩) [] false false)
    ⟨strOf "a", strOf "s", some (strOf "x")⟩ rfl rfl rfl
  exact ⟨h1.1, h1.2, h2.1, h2.2⟩

theorem eraseForest_append (l1 l2 : List TreeNode) :
    eraseForest (l1 ++ l2) = eraseForest l1 ++ eraseForest l2 := by
  induction l1 with
  | nil => rfl
  | cons n ns ih => simp [eraseForest, ih]

theorem eraseNode_withTranslation (n : TreeNode) (t : Option TranslationItem) :
    eraseNode (n.withTranslation t) = eraseNode n := by
  cases n; rfl

theorem eraseNode_key (n : TreeNode) : (eraseNode n).key_segment = n.key_segment := by
  cases n; rfl

theorem eraseNode_children (n : TreeNode) :
    (eraseNode n).children = eraseForest n.children := by
  cases n; rfl

theorem eraseNode_emptyTreeNode : eraseNode emptyTreeNode = emptyTreeNode := by
  simp [emptyTreeNode, eraseNode, eraseForest]

theorem erase_any (ns : List TreeNode) (seg : Str) :
    ((eraseForest ns).any fun n => decide (n.key_segment = seg)) =
      (ns.any fun n => decide (n.key_segment = seg)) := by
  induction ns with
  | nil => rfl
  | cons n ns ih =>
    simp only [eraseForest, List.any_cons, eraseNode_key, ih]

theorem erase_findIdx (ns : List TreeNode) (seg : Str) :
    ((eraseForest ns).findIdx fun n => decide (n.key_segment = seg)) =
      (ns.findIdx fun n => decide (n.key_segment = seg)) := by
  induction ns with
  | nil => rfl
  | cons n ns ih =>
    rw [eraseForest, List.findIdx_cons, List.findIdx_cons, eraseNode_key, ih]

theorem erase_getD (l : List TreeNode) (i : Nat) :
    (eraseForest l).getD i emptyTreeNode = eraseNode (l.getD i emptyTreeNode) := by
  induction l generalizing i with
  | nil => simp [eraseForest, eraseNode_emptyTreeNode]
  | cons n ns ih =>
    cases i with
    | zero => simp [eraseForest]
    | succ j => simpa [eraseForest] using ih j

theorem erase_set (l : List TreeNode) (i : Nat) (x : TreeNode) :
    eraseForest (l.set i x) = (eraseForest l).set i (eraseNode x) := by
  induction l generalizing i with
  | nil => rfl
  | cons n ns ih =>
    cases i with
    | zero => simp [eraseForest, List.set]
    | succ j => simp [eraseForest, List.set, ih j]

theorem eraseNode_withChildren_erase (n : TreeNode) (c : List TreeNode) :
    eraseNode (n.withChildren c) = (eraseNode n).withChildren (eraseForest c) := by
  cases n; rfl

/-- Erasing after an insertion is inserting the shape into the erased
forest: the walk's effect on the structure is independent of the item. -/
theorem erase_insertSegs (p : List Str) :
    ∀ (nodes : List TreeNode) (pre : Str) (item : TranslationItem),
    eraseForest (insertSegs nodes pre p item) =
      insertShape (eraseForest nodes) pre p := by
  induction p with
  | nil => intro nodes pre item; rfl
  | cons seg rest ih =>
    intro nodes pre item
    simp only [insertSegs, insertShape]
    rw [erase_any]
    set nodes1 := if nodes.any fun n => decide (n.key_segment = seg) then nodes
      else nodes ++ [TreeNode.mk seg
        (if pre.isEmpty then seg else pre ++ '.' :: seg) none [] false false]
      with hnodes1
    have h1 : (if nodes.any fun n => decide (n.key_segment = seg) then eraseForest nodes
        else eraseForest nodes ++ [TreeNode.mk seg
          (if pre.isEmpty then seg else pre ++ '.' :: seg) none [] false false]) =
        eraseForest nodes1 := by
      rw [hnodes1]
      split
      · rfl
      · rw [eraseForest_append]
        rfl
    rw [h1, erase_findIdx, erase_getD, erase_set]
    congr 1
    have hsplit : ∀ m : TreeNode,
        eraseNode (if rest.isEmpty then m.withTranslation (some item) else m) =
          eraseNode m := by
      intro m
      split
      · exact eraseNode_withTranslation m (some item)
      · rfl
    have hch : ∀ m : TreeNode,
        (if rest.isEmpty then m.withTranslation (some item) else m).children =
          m.children := by
      intro m
      split <;> simp
    rw [eraseNode_withChildren_erase, hsplit, hch, ih, ← eraseNode_children]

theorem build_fold_erase :
    ∀ (l l' : List TranslationItem) (acc acc' : List TreeNode),
    l.map (·.key) = l'.map (·.key) →
    eraseForest acc = eraseForest acc' →
    eraseForest (l.foldl (fun a it => insertSegs a [] (splitDot it.key) it) acc) =
      eraseForest (l'.foldl (fun a it => insertSegs a [] (splitDot it.key) it) acc') := by
  intro l
  induction l with
  | nil =>
    intro l' acc acc' hk hacc
    cases l' with
    | nil => exact hacc
    | cons it' rest' => simp at hk
  | cons it rest ih =>
    intro l' acc acc' hk hacc
    cases l' with
    | nil => simp at hk
    | cons it' rest' =>
      simp only [List.map_cons, List.cons.injEq] at hk
      simp only [List.foldl_cons]
      apply ih rest' _ _ hk.2
      rw [erase_insertSegs, erase_insertSegs, hacc, hk.1]

@[instance] theorem isTotal_key_strLe :
    IsTotal TranslationItem (fun a b => strLe a.key b.key = true) :=
  ⟨fun a b => strLe_total a.key b.key⟩

@[instance] theorem isTrans_key_strLe :
    IsTrans TranslationItem (fun a b => strLe a.key b.key = true) :=
  ⟨fun _ _ _ hab hbc => strLe_trans hab hbc⟩

@[instance] theorem isAntisymm_strLe :
    IsAntisymm Str (fun a b => strLe a b = true) :=
  ⟨fun _ _ hab hba => strLe_antisymm hab hba⟩

theorem sorted_keys_eq (l1 l2 : List TranslationItem) (h : l1.Perm l2) :
    (List.insertionSort (fun a b => strLe a.key b.key = true) l1).map (·.key) =
      (List.insertionSort (fun a b => strLe a.key b.key = true) l2).map (·.key) := by
  apply List.eq_of_perm_of_sorted (r := fun a b : Str => strLe a b = true)
  · have p1 := (List.perm_insertionSort
      (fun a b => strLe a.key b.key = true) l1).map (fun x => x.key)
    have p2 := h.map (fun x => x.key)
    have p3 := ((List.perm_insertionSort
      (fun a b => strLe a.key b.key = true) l2).map (fun x => x.key)).symm
    exact (p1.trans p2).trans p3
  · exact List.pairwise_map.mpr
      (List.sorted_insertionSort
        (fun a b : TranslationItem => strLe a.key b.key = true) l1)
  · exact List.pairwise_map.mpr
      (List.sorted_insertionSort
        (fun a b : TranslationItem => strLe a.key b.key = true) l2)

/-- C7: building the forest from the same items in any order produces
structurally identical forests — the same nodes in the same sibling order
with the same key segments and full paths (everything but the attached
translation payloads, which is what `eraseForest` keeps). -/
theorem build_tree_deterministic (l1 l2 : List TranslationItem) (h : l1.Perm l2) :
    eraseForest (build_tree l1) = eraseForest (build_tree l2) := by
  unfold build_tree
  exact build_fold_erase _ _ [] [] (sorted_keys_eq l1 l2 h) rfl

/-- Witness for C7 at a two-item store given in both orders. -/
theorem build_tree_deterministic_witness :
    eraseForest (build_tree [⟨strOf "a.b", strOf "s1", none⟩,
        ⟨strOf "a", strOf "s2", some (strOf "t")⟩]) =
      eraseForest (build_tree [⟨strOf "a", strOf "s2", some (strOf "t")⟩,
        ⟨strOf "a.b", strOf "s1", none⟩]) :=
  build_tree_deterministic _ _ (List.Perm.swap _ _ _)

theorem insertChild_key (n : TreeNode) (newPath : Str) (rest : List Str)
    (item : TranslationItem) :
    (insertChild n newPath rest item).key_segment = n.key_segment := by
  unfold insertChild
  split <;> simp

theorem insertSegs_cons_eq {n : TreeNode} {seg : Str} (h : n.key_segment = seg)
    (ns : List TreeNode) (pre : Str) (rest : List Str) (item : TranslationItem) :
    insertSegs (n :: ns) pre (seg :: rest) item =
      insertChild n (if pre.isEmpty then seg else pre ++ '.' :: seg) rest item :: ns := by
  have hany : ((n :: ns).any fun m => decide (m.key_segment = seg)) = true := by
    simp [List.any_cons, h]
  have hidx : List.findIdx (fun m => decide (m.key_segment = seg)) (n :: ns) = 0 := by
    rw [List.findIdx_cons]
    simp [h]
  simp only [insertSegs, hany, if_true, hidx, List.getD_cons_zero, List.set_cons_zero]
  unfold insertChild
  by_cases hrest : rest.isEmpty <;> simp [hrest]

theorem insertSegs_cons_ne {n : TreeNode} {seg : Str} (h : n.key_segment ≠ seg)
    (ns : List TreeNode) (pre : Str) (rest : List Str) (item : TranslationItem) :
    insertSegs (n :: ns) pre (seg :: rest) item =
      n :: insertSegs ns pre (seg :: rest) item := by
  have hpn : (decide (n.key_segment = seg)) = false := by simp [h]
  have hany : ((n :: ns).any fun m => decide (m.key_segment = seg)) =
      (ns.any fun m => decide (m.key_segment = seg)) := by
    simp [List.any_cons, hpn]
  have hidxc : ∀ l : List TreeNode,
      List.findIdx (fun m => decide (m.key_segment = seg)) (n :: l) =
        List.findIdx (fun m => decide (m.key_segment = seg)) l + 1 := by
    intro l
    rw [List.findIdx_cons, hpn]
    rfl
  simp only [insertSegs, hany]
  rcases hany2 : ns.any fun m => decide (m.key_segment = seg) with _ | _
  · simp only [Bool.false_eq_true, if_false, List.cons_append, hidxc,
      List.getD_cons_succ, List.set_cons_succ]
  · simp only [if_true, hidxc, List.getD_cons_succ, List.set_cons_succ]

theorem insertSegs_nil_eq (pre : Str) (seg : Str) (rest : List Str)
    (item : TranslationItem) :
    insertSegs [] pre (seg :: rest) item =
      [insertChild (TreeNode.mk seg (if pre.isEmpty then seg else pre ++ '.' :: seg)
          none [] false false)
        (if pre.isEmpty then seg else pre ++ '.' :: seg) rest item] := by
  have hany : (([] : List TreeNode).any fun m => decide (m.key_segment = seg)) = false := rfl
  simp only [insertSegs, hany, Bool.false_eq_true, if_false, List.nil_append]
  have hidx : List.findIdx (fun m => decide (m.key_segment = seg))
      [TreeNode.mk seg (if pre.isEmpty then seg else pre ++ '.' :: seg)
        none [] false false] = 0 := by
    rw [List.findIdx_cons]
    simp
  simp only [hidx, List.getD_cons_zero, List.set_cons_zero]
  unfold insertChild
  by_cases hrest : rest.isEmpty <;> simp [hrest]

theorem findNode_mem {l : List TreeNode} {s : Str} {x : TreeNode}
    (h : findNode l s = some x) : x ∈ l ∧ x.key_segment = s := by
  induction l with
  | nil => simp [findNode] at h
  | cons n ns ih =>
    by_cases hk : n.key_segment = s
    · rw [findNode, if_pos hk] at h
      exact ⟨by rw [← Option.some.inj h]; exact List.mem_cons_self _ _,
        by rw [← Option.some.inj h]; exact hk⟩
    · rw [findNode, if_neg hk] at h
      exact ⟨List.mem_cons_of_mem _ (ih h).1, (ih h).2⟩

theorem findNode_of_mem {l : List TreeNode} {x : TreeNode}
    (hnd : (l.map TreeNode.key_segment).Nodup) (hx : x ∈ l) :
    findNode l x.key_segment = some x := by
  induction l with
  | nil => simp at hx
  | cons n ns ih =>
    rcases List.mem_cons.mp hx with hm | hm
    · subst hm
      rw [findNode, if_pos rfl]
    · have hk : n.key_segment ≠ x.key_segment := by
        intro he
        exact (List.nodup_cons.mp hnd).1
          (he ▸ List.mem_map_of_mem TreeNode.key_segment hm)
      rw [findNode, if_neg hk]
      exact ih (List.nodup_cons.mp hnd).2 hm

theorem findNode_eq_none_iff {l : List TreeNode} {s : Str} :
    findNode l s = none ↔ ∀ n ∈ l, n.key_segment ≠ s := by
  induction l with
  | nil => simp [findNode]
  | cons n ns ih =>
    by_cases hk : n.key_segment = s
    · simp [findNode, hk]
    · simp only [findNode, if_neg hk, ih]
      constructor
      · intro h m hm
        rcases List.mem_cons.mp hm with hm | hm
        · rw [hm]; exact hk
        · exact h m hm
      · intro h m hm
        exact h m (List.mem_cons_of_mem _ hm)

theorem findNode_cons_of_eq {n : TreeNode} {s : Str} (h : n.key_segment = s)
    (ns : List TreeNode) : findNode (n :: ns) s = some n := by
  rw [findNode, if_pos h]

theorem findNode_cons_of_ne {n : TreeNode} {s : Str} (h : n.key_segment ≠ s)
    (ns : List TreeNode) : findNode (n :: ns) s = findNode ns s := by
  rw [findNode, if_neg h]

theorem findNode_insertSegs_ne (nodes : List TreeNode) (pre : Str) {seg : Str}
    (rest : List Str) (item : TranslationItem) {s : Str} (hs : s ≠ seg) :
    findNode (insertSegs nodes pre (seg :: rest) item) s = findNode nodes s := by
  induction nodes with
  | nil =>
    have hkey : (insertChild (TreeNode.mk seg
        (if pre.isEmpty then seg else pre ++ '.' :: seg) none [] false false)
        (if pre.isEmpty then seg else pre ++ '.' :: seg) rest item).key_segment =
        seg := by
      rw [insertChild_key]
      rfl
    rw [insertSegs_nil_eq,
      findNode_cons_of_ne (by rw [hkey]; exact fun he => hs he.symm)]
  | cons n ns ih =>
    by_cases hk : n.key_segment = seg
    · have hkey : (insertChild n
          (if pre.isEmpty then seg else pre ++ '.' :: seg) rest item).key_segment =
          seg := by rw [insertChild_key]; exact hk
      rw [insertSegs_cons_eq hk,
        findNode_cons_of_ne (by rw [hkey]; exact fun he => hs he.symm),
        findNode_cons_of_ne (by rw [hk]; exact fun he => hs he.symm)]
    · rw [insertSegs_cons_ne hk]
      by_cases hns : n.key_segment = s
      · rw [findNode_cons_of_eq hns, findNode_cons_of_eq hns]
      · rw [findNode_cons_of_ne hns, findNode_cons_of_ne hns]
        exact ih

theorem findNode_insertSegs_self (nodes : List TreeNode) (pre : Str) (seg : Str)
    (rest : List Str) (item : TranslationItem) :
    findNode (insertSegs nodes pre (seg :: rest) item) seg =
      some (insertChild
        ((findNode nodes seg).getD (TreeNode.mk seg
          (if pre.isEmpty then seg else pre ++ '.' :: seg) none [] false false))
        (if pre.isEmpty then seg else pre ++ '.' :: seg) rest item) := by
  induction nodes with
  | nil =>
    have hkey : (insertChild (TreeNode.mk seg
        (if pre.isEmpty then seg else pre ++ '.' :: seg) none [] false false)
        (if pre.isEmpty then seg else pre ++ '.' :: seg) rest item).key_segment =
        seg := by
      rw [insertChild_key]
      rfl
    rw [insertSegs_nil_eq, findNode_cons_of_eq hkey]
    rfl
  | cons n ns ih =>
    by_cases hk : n.key_segment = seg
    · have hkey : (insertChild n
          (if pre.isEmpty then seg else pre ++ '.' :: seg) rest item).key_segment =
          seg := by rw [insertChild_key]; exact hk
      rw [insertSegs_cons_eq hk, findNode_cons_of_eq hkey, findNode_cons_of_eq hk]
      rfl
    · rw [insertSegs_cons_ne hk, findNode_cons_of_ne hk, findNode_cons_of_ne hk]
      exact ih

theorem keys_insertSegs (nodes : List TreeNode) (pre : Str) (seg : Str)
    (rest : List Str) (item : TranslationItem) :
    (insertSegs nodes pre (seg :: rest) item).map TreeNode.key_segment =
      if (findNode nodes seg).isSome then nodes.map TreeNode.key_segment
      else nodes.map TreeNode.key_segment ++ [seg] := by
  induction nodes with
  | nil =>
    rw [insertSegs_nil_eq]
    simp only [List.map_cons, List.map_nil, insertChild_key, TreeNode.key_segment_mk,
      findNode, Option.isSome_none, Bool.false_eq_true, if_false, List.nil_append]
  | cons n ns ih =>
    by_cases hk : n.key_segment = seg
    · rw [insertSegs_cons_eq hk, findNode_cons_of_eq hk]
      simp only [List.map_cons, insertChild_key, Option.isSome_some, if_true]
    · rw [insertSegs_cons_ne hk, findNode_cons_of_ne hk]
      simp only [List.map_cons, ih]
      split <;> simp

theorem insertSegs_ne_nil (nodes : List TreeNode) (pre : Str) (seg : Str)
    (rest : List Str) (item : TranslationItem) :
    insertSegs nodes pre (seg :: rest) item ≠ [] := by
  cases nodes with
  | nil => rw [insertSegs_nil_eq]; simp
  | cons n ns =>
    by_cases hk : n.key_segment = seg
    · rw [insertSegs_cons_eq hk]; simp
    · rw [insertSegs_cons_ne hk]; simp

theorem restrictPaths_append (S T : List (List Str)) (seg : Str) :
    restrictPaths (S ++ T) seg = restrictPaths S seg ++ restrictPaths T seg :=
  List.filterMap_append S T _

theorem restrictPaths_single_eq (seg : Str) (q : List Str) :
    restrictPaths [seg :: q] seg = [q] := by
  simp [restrictPaths]

theorem restrictPaths_single_ne {s seg : Str} (h : s ≠ seg) (q : List Str) :
    restrictPaths [s :: q] seg = [] := by
  simp [restrictPaths, h]

theorem mem_restrictPaths {S : List (List Str)} {seg : Str} {q : List Str} :
    q ∈ restrictPaths S seg ↔ (seg :: q) ∈ S := by
  unfold restrictPaths
  rw [List.mem_filterMap]
  constructor
  · rintro ⟨p, hp, hpq⟩
    match p with
    | [] => simp at hpq
    | s :: q' =>
      have hpq' : (if s = seg then some q' else none) = some q := hpq
      by_cases hs : s = seg
      · rw [if_pos hs] at hpq'
        rw [← hs, ← Option.some.inj hpq']
        exact hp
      · rw [if_neg hs] at hpq'
        simp at hpq'
  · intro h
    exact ⟨seg :: q, h, by simp⟩

theorem restrictPaths_eq_nil {S : List (List Str)} {seg : Str}
    (h : ∀ q, (seg :: q) ∉ S) : restrictPaths S seg = [] := by
  rcases hr : restrictPaths S seg with _ | ⟨q, r⟩
  · rfl
  · exact absurd (mem_restrictPaths.mp (by rw [hr]; exact List.mem_cons_self q r))
      (h q)

theorem nonNil_append (S T : List (List Str)) :
    nonNil (S ++ T) = nonNil S ++ nonNil T :=
  List.filter_append ..

theorem nonNil_single_nil : nonNil [([] : List Str)] = [] := rfl

theorem nonNil_single_ne {q : List Str} (h : q ≠ []) : nonNil [q] = [q] := by
  simp [nonNil, h]

theorem mem_nonNil {S : List (List Str)} {q : List Str} :
    q ∈ nonNil S ↔ q ∈ S ∧ q ≠ [] := by
  simp [nonNil]

theorem TreeInv_nil : TreeInv [] [] :=
  TreeInv.mk [] [] (by simp) (by simp) (by simp) (by simp) (by simp) (by simp)

theorem TreeInv_insertSegs (p : List Str) :
    ∀ (nodes : List TreeNode) (S : List (List Str)) (pre : Str)
      (item : TranslationItem),
    p ≠ [] → TreeInv nodes S →
    TreeInv (insertSegs nodes pre p item) (S ++ [p]) := by
  induction p with
  | nil => intro _ _ _ _ h _; exact absurd rfl h
  | cons seg rest ih =>
    intro nodes S pre item _ hInv
    cases hInv with
    | mk _ _ hcomp hnd hjust htr hch hrec =>
    have hkeys := keys_insertSegs nodes pre seg rest item
    have hsub : ∀ s, s ∈ nodes.map TreeNode.key_segment →
        s ∈ (insertSegs nodes pre (seg :: rest) item).map TreeNode.key_segment := by
      intro s hs
      rw [hkeys]
      split
      · exact hs
      · exact List.mem_append_left _ hs
    have hsegmem : seg ∈ (insertSegs nodes pre (seg :: rest) item).map
        TreeNode.key_segment := by
      rw [hkeys]
      split
      · rename_i hsome
        obtain ⟨n, hn⟩ := Option.isSome_iff_exists.mp hsome
        obtain ⟨hmem, hkey⟩ := findNode_mem hn
        rw [← hkey]
        exact List.mem_map_of_mem _ hmem
      · exact List.mem_append_right _ (by simp)
    have hndR : ((insertSegs nodes pre (seg :: rest) item).map
        TreeNode.key_segment).Nodup := by
      rw [hkeys]
      split
      · exact hnd
      · rename_i hnone
        have hfn : findNode nodes seg = none := by
          rcases hf : findNode nodes seg with _ | n
          · rfl
          · rw [hf] at hnone; simp at hnone
        have hnomem : seg ∉ nodes.map TreeNode.key_segment := by
          intro hmem
          obtain ⟨n, hn, hkey⟩ := List.mem_map.mp hmem
          exact findNode_eq_none_iff.mp hfn n hn hkey
        rw [List.nodup_append]
        exact ⟨hnd, List.nodup_singleton seg, by
          intro a ha hb
          rw [List.mem_singleton] at hb
          exact hnomem (hb ▸ ha)⟩
    have hper : ∀ x ∈ insertSegs nodes pre (seg :: rest) item,
        restrictPaths (S ++ [seg :: rest]) x.key_segment ≠ [] ∧
        (x.translation.isSome = true ↔
          [] ∈ restrictPaths (S ++ [seg :: rest]) x.key_segment) ∧
        (x.children = [] ↔
          nonNil (restrictPaths (S ++ [seg :: rest]) x.key_segment) = []) ∧
        TreeInv x.children
          (nonNil (restrictPaths (S ++ [seg :: rest]) x.key_segment)) := by
      intro x hx
      by_cases hxk : x.key_segment = seg
      · -- the modified (or fresh) node
        have hfx : findNode (insertSegs nodes pre (seg :: rest) item) seg = some x := by
          have h0 := findNode_of_mem hndR hx
          rw [hxk] at h0
          exact h0
        rw [findNode_insertSegs_self] at hfx
        have hxeq := (Option.some.inj hfx).symm
        have hres : restrictPaths (S ++ [seg :: rest]) x.key_segment =
            restrictPaths S seg ++ [rest] := by
          rw [hxk, restrictPaths_append, restrictPaths_single_eq]
        -- facts about the base node n0 and the old continuation set Sn
        rcases hfind : findNode nodes seg with _ | n
        · -- fresh node: no old paths route through seg
          rw [hfind] at hxeq
          have hSn : restrictPaths S seg = [] := by
            apply restrictPaths_eq_nil
            intro q hq
            obtain ⟨s, q', hpq, hs⟩ := hcomp (seg :: q) hq
            obtain ⟨h1, h2⟩ := List.cons.injEq .. ▸ hpq
            rw [← h1] at hs
            obtain ⟨n, hn, hkey⟩ := List.mem_map.mp hs
            exact findNode_eq_none_iff.mp hfind n hn hkey
          have hxtr : x.translation =
              if rest.isEmpty then some item else none := by
            rw [hxeq]
            unfold insertChild
            split <;> simp
          have hxch : x.children = insertSegs []
              (if pre.isEmpty then seg else pre ++ '.' :: seg) rest item := by
            rw [hxeq]
            unfold insertChild
            split <;> simp
          rw [hres, hSn, List.nil_append]
          by_cases hrest : rest = []
          · subst hrest
            refine ⟨by simp, ?_, ?_, ?_⟩
            · simp [hxtr]
            · rw [nonNil_single_nil]
              simp only [List.isEmpty_nil] at hxch
              simp [hxch, insertSegs]
            · rw [nonNil_single_nil]
              have : x.children = [] := by simp [hxch, insertSegs]
              rw [this]
              exact TreeInv_nil
          · obtain ⟨r1, rs, rfl⟩ : ∃ r1 rs, rest = r1 :: rs := by
              cases rest with
              | nil => exact absurd rfl hrest
              | cons a b => exact ⟨a, b, rfl⟩
            refine ⟨by simp, ?_, ?_, ?_⟩
            · rw [hxtr, if_neg (by simp)]
              simp
            · rw [nonNil_single_ne (by simp)]
              have hne := insertSegs_ne_nil ([] : List TreeNode)
                (if pre.isEmpty then seg else pre ++ '.' :: seg) r1 rs item
              rw [hxch]
              simp only [List.cons_ne_self]
              constructor
              · intro hcontra; exact absurd hcontra hne
              · intro hcontra; simp at hcontra
            · rw [nonNil_single_ne (by simp), hxch]
              have := ih [] []
                (if pre.isEmpty then seg else pre ++ '.' :: seg) item
                (by simp) TreeInv_nil
              simpa using this
        · -- existing node n
          rw [hfind] at hxeq
          simp only [Option.getD_some] at hxeq
          have hnmem : n ∈ nodes := (findNode_mem hfind).1
          have hnkey : n.key_segment = seg := (findNode_mem hfind).2
          have hxtr : x.translation =
              if rest.isEmpty then some item else n.translation := by
            rw [hxeq]
            unfold insertChild
            split <;> simp
          have hxch : x.children = insertSegs n.children
              (if pre.isEmpty then seg else pre ++ '.' :: seg) rest item := by
            rw [hxeq]
            unfold insertChild
            split <;> simp
          rw [hres]
          by_cases hrest : rest = []
          · subst hrest
            refine ⟨by simp, ?_, ?_, ?_⟩
            · rw [hxtr, if_pos (by simp)]
              simp
            · rw [nonNil_append, nonNil_single_nil, List.append_nil]
              have : x.children = n.children := by simp [hxch, insertSegs]
              rw [this, ← hnkey]
              exact hch n hnmem
            · rw [nonNil_append, nonNil_single_nil, List.append_nil]
              have : x.children = n.children := by simp [hxch, insertSegs]
              rw [this, ← hnkey]
              exact hrec n hnmem
          · obtain ⟨r1, rs, rfl⟩ : ∃ r1 rs, rest = r1 :: rs := by
              cases rest with
              | nil => exact absurd rfl hrest
              | cons a b => exact ⟨a, b, rfl⟩
            refine ⟨by simp, ?_, ?_, ?_⟩
            · have htr_n := htr n hnmem
              rw [hnkey] at htr_n
              rw [hxtr, if_neg (by simp), htr_n]
              simp [List.mem_append]
            · rw [nonNil_append, nonNil_single_ne (by simp)]
              have hne := insertSegs_ne_nil n.children
                (if pre.isEmpty then seg else pre ++ '.' :: seg) r1 rs item
              rw [hxch]
              constructor
              · intro hcontra; exact absurd hcontra hne
              · intro hcontra; simp at hcontra
            · rw [nonNil_append, nonNil_single_ne (by simp), hxch]
              exact ih n.children (nonNil (restrictPaths S seg))
                (if pre.isEmpty then seg else pre ++ '.' :: seg) item (by simp)
                (by rw [← hnkey]; exact hrec n hnmem)
      · -- untouched node
        have hfx : findNode (insertSegs nodes pre (seg :: rest) item)
            x.key_segment = some x := findNode_of_mem hndR hx
        rw [findNode_insertSegs_ne nodes pre rest item hxk] at hfx
        have hxn : x ∈ nodes := (findNode_mem hfx).1
        have hres : restrictPaths (S ++ [seg :: rest]) x.key_segment =
            restrictPaths S x.key_segment := by
          rw [restrictPaths_append,
            restrictPaths_single_ne (fun he => hxk he.symm), List.append_nil]
        rw [hres]
        exact ⟨hjust x hxn, htr x hxn, hch x hxn, hrec x hxn⟩
    refine TreeInv.mk _ _ ?_ hndR (fun x hx => (hper x hx).1)
      (fun x hx => (hper x hx).2.1) (fun x hx => (hper x hx).2.2.1)
      (fun x hx => (hper x hx).2.2.2)
    intro p' hp'
    rcases List.mem_append.mp hp' with hm | hm
    · obtain ⟨s, q, hpq, hs⟩ := hcomp p' hm
      exact ⟨s, q, hpq, hsub s hs⟩
    · rw [List.mem_singleton] at hm
      exact ⟨seg, rest, hm, hsegmem⟩

theorem TreeInv_build_fold (l : List TranslationItem) :
    ∀ (acc : List TreeNode) (S : List (List Str)),
    TreeInv acc S →
    TreeInv (l.foldl (fun a it => insertSegs a [] (splitDot it.key) it) acc)
      (S ++ l.map fun it => splitDot it.key) := by
  induction l with
  | nil => intro acc S h; simpa using h
  | cons it rest ih =>
    intro acc S h
    simp only [List.foldl_cons, List.map_cons]
    have h1 := TreeInv_insertSegs (splitDot it.key) acc S [] it
      (splitDot_ne_nil _) h
    have h2 := ih _ _ h1
    simpa [List.append_assoc] using h2

theorem leaf_iff_translation_iff (ns : List TreeNode) :
    leaf_iff_translation ns = true ↔
      ∀ n ∈ ns, (n.translation.isSome = n.children.isEmpty) ∧
        leaf_iff_translation n.children = true := by
  induction ns with
  | nil => simp [leaf_iff_translation]
  | cons n ns ih =>
    simp only [leaf_iff_translation, Bool.and_eq_true, beq_iff_eq, ih,
      List.forall_mem_cons]

theorem PathApart_symm : Symmetric PathApart := fun _ _ h => ⟨h.2, h.1⟩

theorem pairwise_restrictPaths {S : List (List Str)} (seg : Str)
    (h : S.Pairwise PathApart) : (restrictPaths S seg).Pairwise PathApart := by
  unfold restrictPaths
  rw [List.pairwise_filterMap]
  apply h.imp_of_mem
  intro p p' _ _ hpp q hq q' hq'
  have hp : p = seg :: q := by
    match p with
    | [] => simp at hq
    | s :: t =>
      have hq2 : (if s = seg then some t else none) = some q := hq
      by_cases hs : s = seg
      · rw [if_pos hs] at hq2
        rw [hs, Option.some.inj hq2]
      · rw [if_neg hs] at hq2
        simp at hq2
  have hp' : p' = seg :: q' := by
    match p' with
    | [] => simp at hq'
    | s :: t =>
      have hq2 : (if s = seg then some t else none) = some q' := hq'
      by_cases hs : s = seg
      · rw [if_pos hs] at hq2
        rw [hs, Option.some.inj hq2]
      · rw [if_neg hs] at hq2
        simp at hq2
  rw [hp, hp'] at hpp
  constructor
  · intro hpre
    exact hpp.1 (List.cons_prefix_cons.mpr ⟨rfl, hpre⟩)
  · intro hpre
    exact hpp.2 (List.cons_prefix_cons.mpr ⟨rfl, hpre⟩)

theorem pairwise_nonNil {S : List (List Str)} (h : S.Pairwise PathApart) :
    (nonNil S).Pairwise PathApart :=
  h.sublist (List.filter_sublist S)

theorem TreeInv_extract {nodes : List TreeNode} {S : List (List Str)}
    (h : TreeInv nodes S) : S.Pairwise PathApart →
    leaf_iff_translation nodes = true := by
  induction h with
  | mk nodes S hcomp hnd hjust htr hch hrec ih =>
    intro hpw
    rw [leaf_iff_translation_iff]
    intro n hn
    have hpwSn : (restrictPaths S n.key_segment).Pairwise PathApart :=
      pairwise_restrictPaths n.key_segment hpw
    constructor
    · by_cases htrn : n.translation.isSome = true
      · have h0 : [] ∈ restrictPaths S n.key_segment := (htr n hn).mp htrn
        have hNN : nonNil (restrictPaths S n.key_segment) = [] := by
          rcases hq : nonNil (restrictPaths S n.key_segment) with _ | ⟨q, r⟩
          · rfl
          · exfalso
            have hqm : q ∈ nonNil (restrictPaths S n.key_segment) := by
              rw [hq]; exact List.mem_cons_self q r
            obtain ⟨hqS, hqne⟩ := mem_nonNil.mp hqm
            have := hpwSn.forall PathApart_symm h0 hqS (fun he => hqne he.symm)
            exact this.1 (List.nil_prefix)
        have hc : n.children = [] := (hch n hn).mpr hNN
        rw [htrn, hc]
        rfl
      · have hfalse : n.translation.isSome = false := by
          simpa using htrn
        have h0 : [] ∉ restrictPaths S n.key_segment :=
          fun hmem => htrn ((htr n hn).mpr hmem)
        obtain ⟨q, r, hqr⟩ : ∃ q r, restrictPaths S n.key_segment = q :: r := by
          rcases hr : restrictPaths S n.key_segment with _ | ⟨q, r⟩
          · exact absurd hr (hjust n hn)
          · exact ⟨q, r, rfl⟩
        have hq : q ∈ restrictPaths S n.key_segment := by
          rw [hqr]; exact List.mem_cons_self q r
        have hqne : q ≠ [] := fun he => h0 (he ▸ hq)
        have hmemNN : q ∈ nonNil (restrictPaths S n.key_segment) :=
          mem_nonNil.mpr ⟨hq, hqne⟩
        have hNNne : nonNil (restrictPaths S n.key_segment) ≠ [] := by
          intro he
          rw [he] at hmemNN
          simp at hmemNN
        have hcne : n.children ≠ [] := fun hc => hNNne ((hch n hn).mp hc)
        rw [hfalse]
        rcases hcc : n.children with _ | ⟨c, cs⟩
        · exact absurd hcc hcne
        · rfl
    · exact ih n hn (pairwise_nonNil hpwSn)

/-- C4 (amended): when no item's key is a segment-wise prefix of another's,
`build_tree` produces a forest in which a node carries a translation exactly
when it is a leaf — and internal (non-leaf) nodes, having nonempty `children`
by definition of `is_leaf`, always have at least one child. -/
theorem build_tree_leaf_iff_translation (items : List TranslationItem)
    (hpw : (items.map (·.key)).Pairwise SegApart) :
    leaf_iff_translation (build_tree items) = true := by
  unfold build_tree
  have hInv := TreeInv_build_fold
    (List.insertionSort (fun a b => strLe a.key b.key = true) items) [] []
    TreeInv_nil
  simp only [List.nil_append] at hInv
  apply TreeInv_extract hInv
  rw [List.pairwise_map]
  have hperm := List.perm_insertionSort (fun a b => strLe a.key b.key = true) items
  rw [List.Perm.pairwise_iff (fun h => ⟨h.2, h.1⟩) hperm]
  rw [List.pairwise_map] at hpw
  exact hpw.imp fun h => h

/-- Witness for C4's amended claim at a segment-wise prefix-free store. -/
theorem build_tree_leaf_iff_translation_witness :
    leaf_iff_translation (build_tree [⟨strOf "a.b", strOf "s1", none⟩,
      ⟨strOf "c", strOf "s2", some (strOf "t")⟩]) = true :=
  build_tree_leaf_iff_translation _ (by decide)

/-- C4 counterexample: with keys `a` and `a.b`, the node for `a` carries a
translation and still has a child, so it is a non-leaf carrying a
translation, contradicting the claim for arbitrary item lists. -/
theorem build_tree_leaf_iff_translation_cex :
    ((build_tree [⟨strOf "a", strOf "s1", some (strOf "x")⟩,
        ⟨strOf "a.b", strOf "s2", some (strOf "y")⟩]).getD 0
        emptyTreeNode).translation =
      some ⟨strOf "a", strOf "s1", some (strOf "x")⟩ ∧
    ((build_tree [⟨strOf "a", strOf "s1", some (strOf "x")⟩,
        ⟨strOf "a.b", strOf "s2", some (strOf "y")⟩]).getD 0
        emptyTreeNode).is_leaf = false :=
  ⟨rfl, rfl⟩
